import Mathlib

/-!
Verification of the LZSS codec in `lzss.cpp` (functions `compress`, `decompress`,
`getDecompressedLength`).

The embedding models C `int` values as `Nat` (all quantities in the codec are
non-negative in every reachable state; 32-bit wraparound is made explicit with
`% 2^32` at the single place the source relies on it, the `bitMask <<= 1`
shift), buffers as `List Nat` of byte values, and the output buffer as the
list of 32-bit words in the order their slots are reserved by the advancing
`next` pointer, together with the byte offset of that pointer.  The C code's
`error(...)` calls (which print and `exit`) are modelled as distinguished
error results, and `return false` as a distinguished `bufferFull` result.
Undefined behaviour in `decompress` (an overlapping `memcpy`, a read past the
end of the compressed stream, or `remaining` driven below zero) is modelled
as `none` / `.undef`.
-/

namespace LZSS

/-- Byte buffers: each entry is one `unsigned char` value. -/
abbrev Bytes := List Nat

/-- Write `v` at index `i` of a word list (in-bounds pointer store; a nop when
out of range, which never happens in reachable states). -/
def setAt : List Nat → Nat → Nat → List Nat
  | [], _, _ => []
  | _ :: xs, 0, v => v :: xs
  | x :: xs, n+1, v => x :: setAt xs n v

/-- `int lengthShift = -1; while (d) { lengthShift++; d >>= 1; }` with enough
fuel: the number of halvings of `d` needed to reach zero, minus one, i.e.
`⌊log2 d⌋` for `d ≥ 1`.  (For `d = 0` the C loop leaves `lengthShift == -1`
and every later use would shift by a negative amount; all uses here have
`d ≥ 4`.) -/
def lsGo : Nat → Nat → Nat
  | _, 0 => 0
  | d, fuel+1 => if 2 ≤ d then lsGo (d / 2) fuel + 1 else 0

/-- `lengthShift` as computed by the halving loop in `compress` (line 57-58)
and `decompress` (line 210-211). -/
def lengthShiftOf (d : Nat) : Nat := lsGo d d

/-- The inner comparison loop of the match search (lzss.cpp lines 100-105):
starting from byte pair `(s+k, cur+k)`, advance while the bytes agree,
`p1 < current`, `matchLength < maxMatch` and `p2 < end`.  Returns the final
`matchLength`.  `fuel` bounds the iterations; `cur - s` always suffices
because each step needs `s + k < cur`. -/
def matchLenGo (input : Bytes) (s cur maxMatch : Nat) : Nat → Nat → Nat
  | k, 0 => k
  | k, fuel+1 =>
    if input.getD (s+k) 0 = input.getD (cur+k) 0 ∧ s + k < cur ∧ k < maxMatch
        ∧ cur + k < input.length then
      matchLenGo input s cur maxMatch (k+1) fuel
    else k

/-- Match length between window position `s` and the current position `cur`
(lzss.cpp lines 96-105). -/
def matchLen (input : Bytes) (s cur maxMatch : Nat) : Nat :=
  matchLenGo input s cur maxMatch 0 (cur - s)

/-- The candidate scan of the match search (lzss.cpp lines 92-114): scan
`search` upward from the window start while `search + bestLength <= current`,
keeping `(bestLength, bestOffset)`; the update fires on `matchLength >=
bestLength`.  `fuel = cur + 1 - s` suffices since the guard forces
`search ≤ current`. -/
def findMatchGo (input : Bytes) (cur maxMatch : Nat) : Nat → Nat → Nat → Nat → Nat × Nat
  | _, bestLength, bestOffset, 0 => (bestLength, bestOffset)
  | s, bestLength, bestOffset, fuel+1 =>
    if s + bestLength ≤ cur then
      let m := matchLen input s cur maxMatch
      if bestLength ≤ m then
        findMatchGo input cur maxMatch (s+1) m (cur - s) fuel
      else
        findMatchGo input cur maxMatch (s+1) bestLength bestOffset fuel
    else (bestLength, bestOffset)

/-- The whole match search for position `cur` with window start `lo`
(in `compress`, `lo = cur - maxOffset` clamped at the input start, which is
exactly truncated subtraction).  Returns `(bestLength, bestOffset)`. -/
def findMatch (input : Bytes) (lo cur maxMatch : Nat) : Nat × Nat :=
  findMatchGo input cur maxMatch lo 0 0 (cur + 1 - lo)

/-- One element of the encoded stream: a literal byte or a string token
`(offset, length)`. -/
inductive Elem where
  | lit (b : Nat)
  | str (off len : Nat)
deriving DecidableEq

/-- The element sequence `compress` emits, read off the main loop
(lzss.cpp lines 85-182) without the packing: at each position run the match
search; a best length `> 2` yields a token and advances by it, otherwise the
byte at `cur` is a literal and the position advances by one. -/
def scanGo (input : Bytes) (maxOffset maxMatch : Nat) : Nat → Nat → List Elem
  | _, 0 => []
  | cur, fuel+1 =>
    if cur < input.length then
      let bm := findMatch input (cur - maxOffset) cur maxMatch
      if 2 < bm.1 then
        .str bm.2 bm.1 :: scanGo input maxOffset maxMatch (cur + bm.1) fuel
      else
        .lit (input.getD cur 0) :: scanGo input maxOffset maxMatch (cur + 1) fuel
    else []

/-- The element sequence of a whole input. -/
def scanElems (input : Bytes) (maxOffset maxMatch : Nat) : List Elem :=
  scanGo input maxOffset maxMatch 0 input.length

/-- Encoder state: the words written so far (`out`, in slot-reservation
order), the byte offset of the `next` pointer from the start of the output
buffer, the slot indices of the currently open flag/string/byte words, and
the three accumulator/counter pairs (lzss.cpp lines 69-79). -/
structure EncState where
  out : List Nat
  nextOff : Nat
  nextBits : Nat
  bits : Nat
  bitMask : Nat
  nextStrings : Nat
  strings : Nat
  stringCount : Nat
  nextBytes : Nat
  bytes : Nat
  byteCount : Nat
deriving DecidableEq

/-- Reserve the next 32-bit word for bit flags (lzss.cpp lines 117-123,
minus the capacity check, which `compressLoop` performs). -/
def reserveBits (st : EncState) : EncState :=
  { st with nextBits := st.out.length, out := st.out ++ [0],
            nextOff := st.nextOff + 4, bits := 0, bitMask := 1 }

/-- Write a 1 flag bit and flush the flag word if all 32 bits are assigned
(lzss.cpp lines 130-132).  `bitMask` is a C `int`; 32 left shifts of 1 wrap
it to zero, hence the explicit `% 2^32`. -/
def emitFlag1 (st : EncState) : EncState :=
  let bits := st.bits ||| st.bitMask
  let bitMask := (st.bitMask <<< 1) % 2^32
  { st with bits := bits, bitMask := bitMask,
            out := if bitMask = 0 then setAt st.out st.nextBits bits else st.out }

/-- Write a 0 flag bit (by only shifting the mask) and flush the flag word if
all 32 bits are assigned (lzss.cpp lines 160-161). -/
def emitFlag0 (st : EncState) : EncState :=
  let bitMask := (st.bitMask <<< 1) % 2^32
  { st with bitMask := bitMask,
            out := if bitMask = 0 then setAt st.out st.nextBits st.bits else st.out }

/-- Reserve the next 32-bit word for 2 strings (lzss.cpp lines 135-140 minus
the capacity check). -/
def reserveStrings (st : EncState) : EncState :=
  { st with nextStrings := st.out.length, out := st.out ++ [0],
            nextOff := st.nextOff + 4, strings := 0 }

/-- Pack one string token into the string accumulator and flush after two
(lzss.cpp lines 143-151). -/
def addString (lengthShift bestLength bestOffset : Nat) (st : EncState) : EncState :=
  let strings := st.strings +
    ((((bestLength - 3) <<< lengthShift) + (bestOffset - 3)) <<< (st.stringCount * 16))
  let stringCount := st.stringCount + 1
  if stringCount = 2 then
    { st with strings := strings, stringCount := 0,
              out := setAt st.out st.nextStrings strings }
  else
    { st with strings := strings, stringCount := stringCount }

/-- Reserve the next 32-bit word for 4 literal bytes (lzss.cpp lines 164-169
minus the capacity check). -/
def reserveBytes (st : EncState) : EncState :=
  { st with nextBytes := st.out.length, out := st.out ++ [0],
            nextOff := st.nextOff + 4, bytes := 0 }

/-- Pack one literal byte into the byte accumulator and flush after four
(lzss.cpp lines 172-180). -/
def addByte (v : Nat) (st : EncState) : EncState :=
  let bytes := st.bytes + (v <<< (st.byteCount * 8))
  let byteCount := st.byteCount + 1
  if byteCount = 4 then
    { st with bytes := bytes, byteCount := 0,
              out := setAt st.out st.nextBytes bytes }
  else
    { st with bytes := bytes, byteCount := byteCount }

/-- The main compression loop (lzss.cpp lines 85-182).  A `.error st` result
is the `return false` path (`next == outputEnd` at a word reservation); it
carries the state at the moment of the abort so that the development can
bound the writes made before the failure.  `fuel = input.length` suffices
since every iteration advances `cur` by at least one. -/
def compressLoop (input : Bytes) (outputLength maxOffset maxMatch lengthShift : Nat) :
    Nat → EncState → Nat → Except EncState EncState
  | _, st, 0 => .ok st
  | cur, st, fuel+1 =>
    if cur < input.length then
      let bm := findMatch input (cur - maxOffset) cur maxMatch
      if st.bitMask = 0 ∧ st.nextOff = outputLength then .error st
      else
        let st1 := if st.bitMask = 0 then reserveBits st else st
        if 2 < bm.1 then
          let st2 := emitFlag1 st1
          if st2.stringCount = 0 ∧ st2.nextOff = outputLength then .error st2
          else
            let st3 := if st2.stringCount = 0 then reserveStrings st2 else st2
            let st4 := addString lengthShift bm.1 bm.2 st3
            compressLoop input outputLength maxOffset maxMatch lengthShift (cur + bm.1) st4 fuel
        else
          let st2 := emitFlag0 st1
          if st2.byteCount = 0 ∧ st2.nextOff = outputLength then .error st2
          else
            let st3 := if st2.byteCount = 0 then reserveBytes st2 else st2
            let st4 := addByte (input.getD cur 0) st3
            compressLoop input outputLength maxOffset maxMatch lengthShift (cur + 1) st4 fuel
    else .ok st

/-- Flush the partially filled words at the end of the loop
(lzss.cpp lines 185-187), in the source order: flags, bytes, strings. -/
def packFinish (st : EncState) : EncState :=
  let stA := if st.bitMask ≠ 0 then { st with out := setAt st.out st.nextBits st.bits } else st
  let stB := if stA.byteCount ≠ 0 then
    { stA with out := setAt stA.out stA.nextBytes stA.bytes } else stA
  if stB.stringCount ≠ 0 then
    { stB with out := setAt stB.out stB.nextStrings stB.strings } else stB

/-- The `error(...)` exits of `compress` (lzss.cpp lines 30-47), identified
by their messages: "Dictionary length must be a power of 2", "Dictionary
length can not be less than 4 bytes", "Dictionary length can exceed 16384
bytes", "Destination buffer is too small". -/
inductive CompressError where
  | invalidDictionary
  | dictionaryTooSmall
  | dictionaryTooLarge
  | outputTooSmall
deriving DecidableEq

/-- Result of `compress`: a fatal `error(...)` exit, the `return false` of a
full output buffer (carrying the words written up to that point), or the
returned `compressedLength` together with the output words (header first). -/
inductive CompressResult where
  | err (e : CompressError)
  | bufferFull (words : List Nat)
  | ok (compressedLength : Nat) (words : List Nat)
deriving DecidableEq

/-- The header store (lzss.cpp lines 50-52): the uncompressed length then the
dictionary length, as two 32-bit words. -/
def writeHeader (uncompressedLength dictionaryLength : Nat) : List Nat :=
  [uncompressedLength, dictionaryLength]

/-- The header read (lzss.cpp lines 198-200). -/
def readHeader (words : List Nat) : Nat × Nat :=
  (words.getD 0 0, words.getD 1 0)

/-- Initial encoder state (lzss.cpp lines 69-79): `next` sits just past the
8-byte header, all accumulators and counters are zero.  The slot indices are
the C code's uninitialised/null pointers; they are never read before being
set. -/
def initEnc : EncState :=
  { out := [], nextOff := 8, nextBits := 0, bits := 0, bitMask := 0,
    nextStrings := 0, strings := 0, stringCount := 0,
    nextBytes := 0, bytes := 0, byteCount := 0 }

/-- `compress(input, inputLength, output, outputLength, dictionaryLength)`
(lzss.cpp lines 27-192).  The dictionary validation, the header-capacity
check, the derived `maxOffset`/`maxMatch`/`lengthShift`, the main loop and
the final flushes, returning `(char*)next - (char*)output` on success. -/
def compress (input : Bytes) (outputLength dictionaryLength : Nat) : CompressResult :=
  if dictionaryLength &&& (dictionaryLength - 1) ≠ 0 then .err .invalidDictionary
  else if dictionaryLength < 4 then .err .dictionaryTooSmall
  else if 16384 < dictionaryLength then .err .dictionaryTooLarge
  else if outputLength < 8 then .err .outputTooSmall
  else
    let maxOffset := dictionaryLength + 2
    let maxMatch := 65536 / dictionaryLength + 2
    let lengthShift := lengthShiftOf dictionaryLength
    match compressLoop input outputLength maxOffset maxMatch lengthShift 0 initEnc
        input.length with
    | .error st => .bufferFull st.out
    | .ok st =>
      let stf := packFinish st
      .ok stf.nextOff (writeHeader input.length dictionaryLength ++ stf.out)

/-- Decoder state (lzss.cpp lines 198, 215-224): the word cursor into the
compressed stream, the three register/counter pairs, the bytes written so
far, and `remaining`. -/
structure DecState where
  cur : Nat
  bits : Nat
  bitMask : Nat
  bytes : Nat
  byteCount : Nat
  strings : Nat
  stringCount : Nat
  buffer : Bytes
  remaining : Nat
deriving DecidableEq

/-- The decompression loop (lzss.cpp lines 225-273).  `none` models undefined
behaviour of the C code: a word read past the end of the compressed input, a
`memcpy` whose source starts before the output buffer, a `memcpy` over
overlapping ranges (`length > offset`; `memcpy` has no defined result
there), or a token longer than `remaining` (which sends the C `int`
`remaining` negative and the `while (remaining)` loop out of bounds).  The
copy itself is `length` bytes starting `offset` bytes back, i.e. a slice of
the already-written buffer — for `length ≤ offset` the source range is
entirely inside the written region, so block copy and byte loop agree.
Each iteration decreases `remaining` by at least 1, so
`fuel = uncompressedLength` suffices. -/
def decompressLoop (words : List Nat) (offsetMask lengthShift lengthMask : Nat) :
    DecState → Nat → Option DecState
  | st, 0 => some st
  | st, fuel+1 =>
    if st.remaining = 0 then some st
    else if st.bitMask = 0 ∧ words.length ≤ st.cur then none
    else
      let st1 := if st.bitMask = 0 then
        { st with bits := words.getD st.cur 0, bitMask := 1, cur := st.cur + 1 } else st
      if st1.bits &&& st1.bitMask ≠ 0 then
        if st1.stringCount = 0 ∧ words.length ≤ st1.cur then none
        else
          let st2 := if st1.stringCount = 0 then
            { st1 with strings := words.getD st1.cur 0, stringCount := 2,
                       cur := st1.cur + 1 } else st1
          let off := (st2.strings &&& offsetMask) + 3
          let len := ((st2.strings >>> lengthShift) &&& lengthMask) + 3
          if off ≤ st2.buffer.length ∧ len ≤ off ∧ len ≤ st2.remaining then
            let st3 := { st2 with
              buffer := st2.buffer ++ (st2.buffer.drop (st2.buffer.length - off)).take len,
              remaining := st2.remaining - len,
              strings := st2.strings >>> 16,
              stringCount := st2.stringCount - 1 }
            decompressLoop words offsetMask lengthShift lengthMask
              { st3 with bitMask := (st3.bitMask <<< 1) % 2^32 } fuel
          else none
      else
        if st1.byteCount = 0 ∧ words.length ≤ st1.cur then none
        else
          let st2 := if st1.byteCount = 0 then
            { st1 with bytes := words.getD st1.cur 0, byteCount := 4,
                       cur := st1.cur + 1 } else st1
          let st3 := { st2 with
            buffer := st2.buffer ++ [st2.bytes &&& 255],
            remaining := st2.remaining - 1,
            bytes := st2.bytes >>> 8,
            byteCount := st2.byteCount - 1 }
          decompressLoop words offsetMask lengthShift lengthMask
            { st3 with bitMask := (st3.bitMask <<< 1) % 2^32 } fuel

/-- Result of `decompress`: the fatal "Destination buffer is too small"
exit, undefined behaviour (see `decompressLoop`), or the returned
`uncompressedLength` with the reconstructed bytes. -/
inductive DecompressResult where
  | err
  | undef
  | ok (uncompressedLength : Nat) (buffer : Bytes)
deriving DecidableEq

/-- `decompress(input, output, outputBufferLength)` (lzss.cpp lines
195-276): read the header, check the capacity, derive the masks
(`~offsetMask` is 32-bit complement, hence `2^32 - 1 - offsetMask`), run the
loop. -/
def decompress (words : List Nat) (outputBufferLength : Nat) : DecompressResult :=
  let uncompressedLength := words.getD 0 0
  let dictionaryLength := words.getD 1 0
  if outputBufferLength < uncompressedLength then .err
  else
    let offsetMask := dictionaryLength - 1
    let lengthShift := lengthShiftOf dictionaryLength
    let lengthMask := (((2^32 - 1) - offsetMask) &&& 65535) >>> lengthShift
    match decompressLoop words offsetMask lengthShift lengthMask
      { cur := 2, bits := 0, bitMask := 0, bytes := 0, byteCount := 0,
        strings := 0, stringCount := 0, buffer := [],
        remaining := uncompressedLength } uncompressedLength with
    | none => .undef
    | some st => .ok uncompressedLength st.buffer

/-- `getDecompressedLength` (lzss.cpp lines 279-282). -/
def getDecompressedLength (words : List Nat) : Nat :=
  words.getD 0 0

/-! ### Proof-side abstractions of the packed stream -/

/-- The literal bytes of an element list, in order. -/
def litsOf : List Elem → List Nat
  | [] => []
  | .lit v :: es => v :: litsOf es
  | .str _ _ :: es => litsOf es

/-- The string tokens `(offset, length)` of an element list, in order. -/
def strsOf : List Elem → List (Nat × Nat)
  | [] => []
  | .lit _ :: es => strsOf es
  | .str off len :: es => (off, len) :: strsOf es

/-- The packed 16-bit string token: `((length-3) << lengthShift) + (offset-3)`. -/
def tokenOf (lengthShift : Nat) (t : Nat × Nat) : Nat :=
  ((t.2 - 3) <<< lengthShift) + (t.1 - 3)

/-- The packed token of the first of a token list, or the 0 left by the
accumulator reset when no token follows. -/
def tokenHead (lengthShift : Nat) : List (Nat × Nat) → Nat
  | [] => 0
  | t :: _ => tokenOf lengthShift t

/-- The low `n` flag bits of an element list (LSB first), with 0 padding. -/
def flagBits : Nat → List Elem → Nat
  | 0, _ => 0
  | _+1, [] => 0
  | n+1, .str _ _ :: es => 1 + 2 * flagBits n es
  | n+1, .lit _ :: es => 0 + 2 * flagBits n es

/-- The completed 32-bit flag word opened in front of an element list. -/
def flagWordOf (es : List Elem) : Nat := flagBits 32 es

/-- Up to `n` literal bytes packed LSB-first, with 0 padding. -/
def byteBits : Nat → List Nat → Nat
  | 0, _ => 0
  | _+1, [] => 0
  | n+1, v :: vs => v + 256 * byteBits n vs

/-- The completed 32-bit byte word opened in front of a literal list. -/
def byteWordOf (lits : List Nat) : Nat := byteBits 4 lits

/-- The completed 32-bit string word opened in front of a token list. -/
def strWordOf (lengthShift : Nat) : List (Nat × Nat) → Nat
  | [] => 0
  | t :: ts => tokenOf lengthShift t + 2^16 * tokenHead lengthShift ts

/-- The words reserved while packing the element list `es`, given the fill
positions of the currently open words: `p` flag bits, `s` string tokens and
`b` literal bytes already placed in them (0 meaning the word is closed and a
new one opens at the next element of that stream).  Each reserved word is
listed with its final, completed value. -/
def futureWords (lengthShift : Nat) : List Elem → Nat → Nat → Nat → List Nat
  | [], _, _, _ => []
  | .str off len :: es, p, s, b =>
    (if p = 0 then [flagWordOf (.str off len :: es)] else []) ++
    (if s = 0 then [strWordOf lengthShift (strsOf (.str off len :: es))] else []) ++
    futureWords lengthShift es ((p+1) % 32) ((s+1) % 2) b
  | .lit v :: es, p, s, b =>
    (if p = 0 then [flagWordOf (.lit v :: es)] else []) ++
    (if b = 0 then [byteWordOf (litsOf (.lit v :: es))] else []) ++
    futureWords lengthShift es ((p+1) % 32) s ((b+1) % 4)

/-- `packElem` is the state transformation of one loop iteration of
`compress` for a given element, without the capacity checks. -/
def packElem (lengthShift : Nat) (st : EncState) (e : Elem) : EncState :=
  let st1 := if st.bitMask = 0 then reserveBits st else st
  match e with
  | .str off len =>
    let st2 := emitFlag1 st1
    let st3 := if st2.stringCount = 0 then reserveStrings st2 else st2
    addString lengthShift len off st3
  | .lit v =>
    let st2 := emitFlag0 st1
    let st3 := if st2.byteCount = 0 then reserveBytes st2 else st2
    addByte v st3

/-- Packing a whole element list. -/
def packList (lengthShift : Nat) : EncState → List Elem → EncState
  | st, [] => st
  | st, e :: es => packList lengthShift (packElem lengthShift st e) es

/-- Replay one element onto a reconstruction buffer: a literal appends its
byte; a token appends the `len` bytes starting `off` back, provided that
range lies inside the already-written buffer (otherwise the decoder's
`memcpy` has no defined result). -/
def replayElem (buf : Bytes) : Elem → Option Bytes
  | .lit v => some (buf ++ [v])
  | .str off len =>
    if off ≤ buf.length ∧ len ≤ off then
      some (buf ++ (buf.drop (buf.length - off)).take len)
    else none

/-- Replay of a whole element list. -/
def replayList (buf : Bytes) : List Elem → Option Bytes
  | [] => some buf
  | e :: es =>
    match replayElem buf e with
    | none => none
    | some b2 => replayList b2 es

/-- Number of output bytes an element list reconstructs. -/
def esSize : List Elem → Nat
  | [] => 0
  | .lit _ :: es => 1 + esSize es
  | .str _ len :: es => len + esSize es

/-- Well-formedness of a token for packing at shift `ls`: both packed fields
fit their bit widths. -/
def tokOK (ls : Nat) (t : Nat × Nat) : Prop :=
  3 ≤ t.1 ∧ t.1 - 3 < 2^ls ∧ 3 ≤ t.2 ∧ t.2 - 3 < 2^(16-ls)

instance (ls : Nat) (t : Nat × Nat) : Decidable (tokOK ls t) := by
  unfold tokOK; infer_instance

/-- The final output words of a mid-pack state: the already-reserved words
with the three open slots patched to their completed values (current
accumulator content plus the contributions of the coming elements), followed
by the words the coming elements reserve. -/
def completeOut (ls : Nat) (st : EncState) (p s b : Nat) (es : List Elem) : List Nat :=
  let o1 := if p = 0 then st.out
    else setAt st.out st.nextBits (st.bits + 2^p * flagBits (32 - p) es)
  let o2 := if b = 0 then o1
    else setAt o1 st.nextBytes (st.bytes + 2^(8*b) * byteBits (4 - b) (litsOf es))
  let o3 := if s = 0 then o2
    else setAt o2 st.nextStrings (st.strings + 2^16 * tokenHead ls (strsOf es))
  o3 ++ futureWords ls es p s b

/-- No 3-byte substring of the input repeats inside the reach of any search
window: there are no positions `s < cur` with `cur ≤ s + maxOffset` whose
3-byte substrings coincide.  (Bounded quantifiers keep this decidable for
concrete inputs.) -/
def NoRepeat3 (input : Bytes) (maxOffset : Nat) : Prop :=
  ∀ cur < input.length, ∀ s < cur,
    ¬(cur ≤ s + maxOffset ∧ cur + 2 < input.length ∧ s + 3 ≤ cur ∧
      input.getD s 0 = input.getD cur 0 ∧
      input.getD (s+1) 0 = input.getD (cur+1) 0 ∧
      input.getD (s+2) 0 = input.getD (cur+2) 0)

instance (input : Bytes) (maxOffset : Nat) : Decidable (NoRepeat3 input maxOffset) := by
  unfold NoRepeat3; infer_instance

/-- Reservation count of a word stream with period `k`: how many of the next
`m` elements of that stream land on fill position 0 (opening a new word),
starting from fill position `q`. -/
def reserveCount (k : Nat) : Nat → Nat → Nat
  | 0, _ => 0
  | m+1, q => (if q = 0 then 1 else 0) + reserveCount k m ((q+1) % k)

/-- Consistency of a mid-pack encoder state with fill positions `p` (flag
bits), `s` (string tokens) and `b` (literal bytes) in the currently open
words: the accumulators hold exactly the packed prefix data and the open
slot indices are in range and pairwise distinct. -/
def EncCon (st : EncState) (p s b : Nat) : Prop :=
  p < 32 ∧ s < 2 ∧ b < 4 ∧
  st.bitMask = (if p = 0 then 0 else 2^p) ∧
  (p ≠ 0 → st.bits < 2^p) ∧
  st.stringCount = s ∧
  (s ≠ 0 → st.strings < 2^16) ∧
  st.byteCount = b ∧
  (b ≠ 0 → st.bytes < 2^(8*b)) ∧
  (p ≠ 0 → st.nextBits < st.out.length) ∧
  (s ≠ 0 → st.nextStrings < st.out.length) ∧
  (b ≠ 0 → st.nextBytes < st.out.length) ∧
  (p ≠ 0 → s ≠ 0 → st.nextBits ≠ st.nextStrings) ∧
  (p ≠ 0 → b ≠ 0 → st.nextBits ≠ st.nextBytes) ∧
  (s ≠ 0 → b ≠ 0 → st.nextStrings ≠ st.nextBytes)

end LZSS

namespace LZSS

/-! ### List update lemmas -/

theorem setAt_length (xs : List Nat) (i v : Nat) : (setAt xs i v).length = xs.length := by
  induction xs generalizing i with
  | nil => rfl
  | cons x xs ih => cases i with
    | zero => rfl
    | succ n => simp [setAt, ih]

theorem setAt_append_left {xs : List Nat} (ys : List Nat) {i : Nat} (h : i < xs.length)
    (v : Nat) : setAt (xs ++ ys) i v = setAt xs i v ++ ys := by
  induction xs generalizing i with
  | nil => simp at h
  | cons x xs ih => cases i with
    | zero => rfl
    | succ n =>
      show x :: setAt (xs ++ ys) n v = x :: (setAt xs n v ++ ys)
      rw [ih (by simpa using h)]

theorem setAt_append_right (xs ys : List Nat) (i v : Nat) :
    setAt (xs ++ ys) (xs.length + i) v = xs ++ setAt ys i v := by
  induction xs with
  | nil => simp [List.nil_append]
  | cons x xs ih =>
    have e : (x :: xs).length + i = (xs.length + i) + 1 := by
      simp [List.length_cons]; omega
    rw [e]
    show x :: setAt (xs ++ ys) (xs.length + i) v = x :: (xs ++ setAt ys i v)
    rw [ih]

theorem setAt_snoc (xs : List Nat) (v : Nat) : setAt (xs ++ [0]) xs.length v = xs ++ [v] := by
  simpa using setAt_append_right xs [0] 0 v

theorem setAt_comm {xs : List Nat} {i j : Nat} (h : i ≠ j) (v w : Nat) :
    setAt (setAt xs i v) j w = setAt (setAt xs j w) i v := by
  induction xs generalizing i j with
  | nil => rfl
  | cons x xs ih =>
    cases i with
    | zero => cases j with
      | zero => exact absurd rfl h
      | succ m => rfl
    | succ n => cases j with
      | zero => rfl
      | succ m => simp only [setAt]
                  rw [ih (by omega)]

theorem setAt_oob {xs : List Nat} {i : Nat} (h : xs.length ≤ i) (v : Nat) :
    setAt xs i v = xs := by
  induction xs generalizing i with
  | nil => rfl
  | cons x xs ih => cases i with
    | zero => simp at h
    | succ n => simp only [setAt]
                rw [ih (by simpa using h)]

/-! ### Bit arithmetic helpers -/

theorem or_two_pow_eq_add {a : Nat} (p : Nat) (h : a < 2^p) : a ||| 2^p = a + 2^p := by
  have h1 := Nat.mul_add_lt_is_or h 1
  rw [Nat.mul_one] at h1
  rw [Nat.lor_comm, ← h1, Nat.add_comm]

theorem and_two_pow_eq (x p : Nat) :
    x &&& 2^p = if x / 2^p % 2 = 1 then 2^p else 0 := by
  rw [Nat.and_two_pow, Nat.testBit_to_div_mod]
  by_cases h : x / 2^p % 2 = 1 <;> simp [h]

theorem and_mask_eq_mod (x n : Nat) : x &&& (2^n - 1) = x % 2^n :=
  Nat.and_pow_two_sub_one_eq_mod x n

theorem shiftRight_div (x n : Nat) : x >>> n = x / 2^n :=
  Nat.shiftRight_eq_div_pow x n

theorem shiftLeft_mul (x n : Nat) : x <<< n = x * 2^n :=
  Nat.shiftLeft_eq x n

/-! ### `lengthShiftOf` -/

theorem lsGo_two_pow (k : Nat) : ∀ fuel, 2^k ≤ fuel → lsGo (2^k) fuel = k := by
  induction k with
  | zero =>
    intro fuel h
    match fuel, h with
    | fuel+1, _ => simp [lsGo]
  | succ k ih =>
    intro fuel h
    have h2 : 2 ≤ 2^(k+1) := by
      calc 2 = 2^1 := rfl
      _ ≤ 2^(k+1) := Nat.pow_le_pow_right (by omega) (by omega)
    match fuel, Nat.le_trans h2 h with
    | fuel+1, _ =>
      have hdiv : 2^(k+1) / 2 = 2^k := by
        rw [Nat.pow_succ, Nat.mul_div_cancel _ (by omega)]
      simp only [lsGo, if_pos h2, hdiv]
      rw [ih fuel (by have := Nat.one_le_two_pow (n := k); omega)]

theorem lsGo_bounds : ∀ fuel d, 1 ≤ d → d ≤ fuel →
    2^(lsGo d fuel) ≤ d ∧ d < 2^(lsGo d fuel + 1) := by
  intro fuel
  induction fuel with
  | zero => intro d h1 h2; omega
  | succ fuel ih =>
    intro d h1 h2
    by_cases h : 2 ≤ d
    · have hd2 : 1 ≤ d / 2 := by omega
      have hd2f : d / 2 ≤ fuel := by omega
      obtain ⟨hl, hr⟩ := ih (d / 2) hd2 hd2f
      simp only [lsGo, if_pos h]
      have e1 : (2:Nat)^(lsGo (d/2) fuel + 1) = 2^(lsGo (d/2) fuel) * 2 :=
        Nat.pow_succ 2 (lsGo (d/2) fuel)
      have e2 : (2:Nat)^(lsGo (d/2) fuel + 1 + 1) = 2^(lsGo (d/2) fuel + 1) * 2 :=
        Nat.pow_succ 2 (lsGo (d/2) fuel + 1)
      omega
    · simp only [lsGo, if_neg h]
      omega

theorem lengthShiftOf_two_pow (k : Nat) : lengthShiftOf (2^k) = k :=
  lsGo_two_pow k (2^k) (Nat.le_refl _)

theorem testBit_of_bounds {x i : Nat} (h1 : 2^i ≤ x) (h2 : x < 2^(i+1)) :
    x.testBit i = true := by
  rw [Nat.testBit_to_div_mod]
  have hpos : 0 < 2^i := Nat.pos_pow_of_pos i (by omega)
  have hd1 : 1 ≤ x / 2^i := (Nat.one_le_div_iff hpos).2 h1
  have hd2 : x / 2^i < 2 := by
    rw [Nat.div_lt_iff_lt_mul hpos]
    calc x < 2^(i+1) := h2
    _ = 2 * 2^i := by rw [Nat.pow_succ]; ring
  have : x / 2^i = 1 := by omega
  simp [this]

/-- A value passing the source's power-of-two test `(d & (d-1)) == 0` with
`d ≥ 1` is exactly `2 ^ lengthShiftOf d`. -/
theorem pow2_of_and_pred_eq_zero {d : Nat} (h1 : 1 ≤ d) (h : d &&& (d - 1) = 0) :
    d = 2^(lengthShiftOf d) := by
  obtain ⟨hl, hr⟩ := lsGo_bounds d d h1 (Nat.le_refl d)
  have hl' : 2^(lengthShiftOf d) ≤ d := hl
  have hr' : d < 2^(lengthShiftOf d + 1) := hr
  rcases Nat.lt_or_ge (2^(lengthShiftOf d)) d with hlt | hge
  · exfalso
    have ht1 : d.testBit (lengthShiftOf d) = true := testBit_of_bounds hl' hr'
    have ht2 : (d - 1).testBit (lengthShiftOf d) = true :=
      testBit_of_bounds (by omega) (by omega)
    have hand : (d &&& (d - 1)).testBit (lengthShiftOf d) = true := by
      rw [Nat.testBit_and, ht1, ht2]; rfl
    rw [h, Nat.zero_testBit] at hand
    exact Bool.false_ne_true hand
  · omega

/-- The legal-dictionary facts used everywhere: a `d` passing all three
checks of `compress` is `2^ls` with `ls = lengthShiftOf d ∈ [2, 14]`. -/
theorem legal_dict {d : Nat} (hpow : d &&& (d - 1) = 0) (h4 : 4 ≤ d) (h16 : d ≤ 16384) :
    d = 2^(lengthShiftOf d) ∧ 2 ≤ lengthShiftOf d ∧ lengthShiftOf d ≤ 14 := by
  have hd := pow2_of_and_pred_eq_zero (by omega) hpow
  refine ⟨hd, ?_, ?_⟩
  · by_contra hc
    have h2 : (2:Nat)^(lengthShiftOf d) ≤ 2 := by
      calc (2:Nat)^(lengthShiftOf d) ≤ 2^1 := Nat.pow_le_pow_right (by omega) (by omega)
      _ = 2 := by norm_num
    omega
  · by_contra hc
    have h15 : (2:Nat)^15 ≤ 2^(lengthShiftOf d) := Nat.pow_le_pow_right (by omega) (by omega)
    have h15v : (2:Nat)^15 = 32768 := by norm_num
    omega

theorem two_pow_split {ls : Nat} (hls : ls ≤ 16) : (2:Nat)^ls * 2^(16-ls) = 65536 := by
  rw [← Nat.pow_add]
  have e : ls + (16 - ls) = 16 := by omega
  rw [e]

theorem maxMatch_eq {ls : Nat} (hls : ls ≤ 16) : 65536 / 2^ls = 2^(16-ls) := by
  rw [← two_pow_split hls, Nat.mul_div_cancel_left _ (Nat.two_pow_pos ls)]

theorem maskAux {A B : Nat} (hAB : A * B = 65536) (hA1 : 1 ≤ A) (hB1 : 1 ≤ B) :
    ((4294967296 - 1) - (A - 1)) % 65536 / A = B - 1 := by
  have hA : A ≤ 65536 := by
    calc A = A * 1 := (Nat.mul_one A).symm
    _ ≤ A * B := Nat.mul_le_mul_left A hB1
    _ = 65536 := hAB
  have e1 : (4294967296 - 1) - (A - 1) = 65536 * 65535 + (65536 - A) := by omega
  rw [e1, Nat.mul_add_mod, Nat.mod_eq_of_lt (by omega)]
  have e2 : 65536 - A = A * (B - 1) := by
    rw [Nat.mul_sub_one, hAB]
  rw [e2, Nat.mul_div_cancel_left _ (by omega)]

theorem lengthMask_eq {ls : Nat} (h1 : 1 ≤ ls) (h14 : ls ≤ 14) :
    (((2^32 - 1) - (2^ls - 1)) &&& 65535) >>> ls = 2^(16-ls) - 1 := by
  have e35 : (65535:Nat) = 2^16 - 1 := by norm_num
  rw [e35, and_mask_eq_mod, shiftRight_div]
  have e32 : (2:Nat)^32 = 4294967296 := by norm_num
  have e16 : (2:Nat)^16 = 65536 := by norm_num
  rw [e32, e16]
  exact maskAux (two_pow_split (by omega)) Nat.one_le_two_pow Nat.one_le_two_pow

end LZSS

namespace LZSS

/-! ### Match search lemmas -/

theorem matchLenGo_conds (input : Bytes) (s cur mm : Nat) :
    ∀ fuel k j, k ≤ j → j < matchLenGo input s cur mm k fuel →
      input.getD (s+j) 0 = input.getD (cur+j) 0 ∧ s + j < cur ∧ j < mm ∧
      cur + j < input.length := by
  intro fuel
  induction fuel with
  | zero => intro k j hk hj; simp only [matchLenGo] at hj; omega
  | succ fuel ih =>
    intro k j hk hj
    simp only [matchLenGo] at hj
    split at hj
    · rename_i hcond
      rcases Nat.eq_or_lt_of_le hk with rfl | hlt
      · exact hcond
      · exact ih (k+1) j hlt hj
    · omega

theorem matchLen_conds (input : Bytes) (s cur mm : Nat) {j : Nat}
    (hj : j < matchLen input s cur mm) :
    input.getD (s+j) 0 = input.getD (cur+j) 0 ∧ s + j < cur ∧ j < mm ∧
    cur + j < input.length :=
  matchLenGo_conds input s cur mm (cur - s) 0 j (Nat.zero_le j) hj

theorem matchLen_le_dist (input : Bytes) (s cur mm : Nat) :
    matchLen input s cur mm ≤ cur - s := by
  by_contra hc
  have h := matchLen_conds input s cur mm (j := cur - s) (by omega)
  omega

theorem matchLen_le_mm (input : Bytes) (s cur mm : Nat) :
    matchLen input s cur mm ≤ mm := by
  by_contra hc
  have h := matchLen_conds input s cur mm (j := mm) (by omega)
  omega

theorem matchLen_le_rest (input : Bytes) (s cur mm : Nat) :
    matchLen input s cur mm ≤ input.length - cur := by
  by_contra hc
  have h := matchLen_conds input s cur mm (j := input.length - cur) (by omega)
  omega

theorem findMatchGo_spec (input : Bytes) (cur mm lo : Nat) :
    ∀ fuel s bl bo,
      lo ≤ s → s ≤ cur + 1 → cur + 1 ≤ s + fuel →
      (∃ u, lo ≤ u ∧ u < s ∧ matchLen input u cur mm = bl ∧ bo = cur - u ∧
        ∀ u', u < u' → u' < s → matchLen input u' cur mm < bl) →
      (∀ u, lo ≤ u → u < s → matchLen input u cur mm ≤ bl) →
      (∃ u, lo ≤ u ∧ u ≤ cur ∧
          matchLen input u cur mm = (findMatchGo input cur mm s bl bo fuel).1 ∧
          (findMatchGo input cur mm s bl bo fuel).2 = cur - u) ∧
      (∀ u, lo ≤ u → u ≤ cur →
          matchLen input u cur mm ≤ (findMatchGo input cur mm s bl bo fuel).1) ∧
      (∀ u, lo ≤ u → u ≤ cur →
          matchLen input u cur mm = (findMatchGo input cur mm s bl bo fuel).1 →
          (findMatchGo input cur mm s bl bo fuel).2 ≤ cur - u) := by
  intro fuel
  induction fuel with
  | zero =>
    intro s bl bo hlos hs hfuel hach hmax
    obtain ⟨u0, hu0lo, hu0s, hu0m, hu0o, hu0big⟩ := hach
    have hs' : s = cur + 1 := by omega
    simp only [findMatchGo]
    refine ⟨⟨u0, hu0lo, by omega, hu0m, hu0o⟩, ?_, ?_⟩
    · intro u hu1 hu2; exact hmax u hu1 (by omega)
    · intro u hu1 hu2 hum
      have : u ≤ u0 := by
        by_contra hc
        have := hu0big u (by omega) (by omega)
        omega
      omega
  | succ fuel ih =>
    intro s bl bo hlos hs hfuel hach hmax
    simp only [findMatchGo]
    by_cases hguard : s + bl ≤ cur
    · rw [if_pos hguard]
      by_cases hup : bl ≤ matchLen input s cur mm
      · rw [if_pos hup]
        refine ih (s+1) (matchLen input s cur mm) (cur - s) (by omega) (by omega)
          (by omega) ?_ ?_
        · exact ⟨s, by omega, by omega, rfl, rfl, by omega⟩
        · intro u hu1 hu2
          rcases Nat.lt_or_ge u s with h | h
          · exact Nat.le_trans (hmax u hu1 h) hup
          · have : u = s := by omega
            subst this; omega
      · rw [if_neg hup]
        obtain ⟨u0, hu0lo, hu0s, hu0m, hu0o, hu0big⟩ := hach
        refine ih (s+1) bl bo (by omega) (by omega) (by omega) ?_ ?_
        · refine ⟨u0, hu0lo, by omega, hu0m, hu0o, ?_⟩
          intro u' h1 h2
          rcases Nat.lt_or_ge u' s with h | h
          · exact hu0big u' h1 h
          · have : u' = s := by omega
            subst this; omega
        · intro u hu1 hu2
          rcases Nat.lt_or_ge u s with h | h
          · exact hmax u hu1 h
          · have : u = s := by omega
            subst this; omega
    · rw [if_neg hguard]
      obtain ⟨u0, hu0lo, hu0s, hu0m, hu0o, hu0big⟩ := hach
      have hunvis : ∀ u, s ≤ u → u ≤ cur → matchLen input u cur mm < bl := by
        intro u h1 h2
        have := matchLen_le_dist input u cur mm
        omega
      refine ⟨⟨u0, hu0lo, by omega, hu0m, hu0o⟩, ?_, ?_⟩
      · intro u hu1 hu2
        rcases Nat.lt_or_ge u s with h | h
        · exact hmax u hu1 h
        · exact Nat.le_of_lt (hunvis u h hu2)
      · intro u hu1 hu2 hum
        rcases Nat.lt_or_ge u s with h | h
        · have : u ≤ u0 := by
            by_contra hc
            have := hu0big u (by omega) (by omega)
            omega
          omega
        · have := hunvis u h hu2
          omega

theorem findMatch_spec (input : Bytes) (lo cur mm : Nat) (hlo : lo ≤ cur) :
    (∃ u, lo ≤ u ∧ u ≤ cur ∧ matchLen input u cur mm = (findMatch input lo cur mm).1 ∧
      (findMatch input lo cur mm).2 = cur - u) ∧
    (∀ u, lo ≤ u → u ≤ cur → matchLen input u cur mm ≤ (findMatch input lo cur mm).1) ∧
    (∀ u, lo ≤ u → u ≤ cur → matchLen input u cur mm = (findMatch input lo cur mm).1 →
      (findMatch input lo cur mm).2 ≤ cur - u) := by
  have hfe : cur + 1 - lo = (cur - lo) + 1 := by omega
  unfold findMatch
  rw [hfe]
  simp only [findMatchGo, if_pos (by omega : lo + 0 ≤ cur),
    if_pos (Nat.zero_le (matchLen input lo cur mm))]
  exact findMatchGo_spec input cur mm lo (cur - lo) (lo + 1) (matchLen input lo cur mm)
    (cur - lo) (by omega) (by omega) (by omega)
    ⟨lo, by omega, by omega, rfl, by omega, by omega⟩
    (by intro u h1 h2
        have : u = lo := by omega
        subst this; omega)

theorem findMatch_len_le_offset (input : Bytes) (lo cur mm : Nat) (hlo : lo ≤ cur) :
    (findMatch input lo cur mm).1 ≤ (findMatch input lo cur mm).2 ∧
    (findMatch input lo cur mm).2 ≤ cur - lo ∧
    (findMatch input lo cur mm).1 ≤ mm ∧
    (findMatch input lo cur mm).1 ≤ input.length - cur := by
  obtain ⟨⟨u, hu1, hu2, hu3, hu4⟩, -, -⟩ := findMatch_spec input lo cur mm hlo
  refine ⟨?_, by omega, ?_, ?_⟩
  · have := matchLen_le_dist input u cur mm
    omega
  · have := matchLen_le_mm input u cur mm
    omega
  · have := matchLen_le_rest input u cur mm
    omega

/-- The bytes matched by the search: the `(findMatch).1` bytes starting
`(findMatch).2` back of `cur` equal the bytes starting at `cur`. -/
theorem findMatch_eqBytes (input : Bytes) (lo cur mm : Nat) (hlo : lo ≤ cur) :
    ∀ j < (findMatch input lo cur mm).1,
      input.getD (cur - (findMatch input lo cur mm).2 + j) 0 = input.getD (cur + j) 0 := by
  obtain ⟨⟨u, hu1, hu2, hu3, hu4⟩, -, -⟩ := findMatch_spec input lo cur mm hlo
  intro j hj
  have he : cur - (findMatch input lo cur mm).2 = u := by omega
  rw [he]
  rw [← hu3] at hj
  exact (matchLen_conds input u cur mm hj).1

end LZSS

namespace LZSS

/-! ### Scan lemmas -/

theorem scanGo_str_bounds (input : Bytes) (mo mm : Nat) :
    ∀ fuel cur off len, Elem.str off len ∈ scanGo input mo mm cur fuel →
      3 ≤ len ∧ len ≤ mm ∧ len ≤ off ∧ 3 ≤ off ∧ off ≤ mo := by
  intro fuel
  induction fuel with
  | zero => intro cur off len h; simp [scanGo] at h
  | succ fuel ih =>
    intro cur off len h
    simp only [scanGo] at h
    split at h
    · rename_i hcur
      have hlo : cur - mo ≤ cur := Nat.sub_le cur mo
      obtain ⟨hBO, hO, hBmm, -⟩ := findMatch_len_le_offset input (cur - mo) cur mm hlo
      split at h
      · rename_i hB
        rcases List.mem_cons.1 h with he | hmem
        · have h1 : off = (findMatch input (cur - mo) cur mm).2 := by
            injection he with e1 e2
          have h2 : len = (findMatch input (cur - mo) cur mm).1 := by
            injection he with e1 e2
          subst h1; subst h2
          omega
        · exact ih _ off len hmem
      · rcases List.mem_cons.1 h with he | hmem
        · exact absurd he (by simp)
        · exact ih _ off len hmem
    · simp at h

theorem scanGo_size (input : Bytes) (mo mm : Nat) :
    ∀ fuel cur, input.length ≤ cur + fuel →
      esSize (scanGo input mo mm cur fuel) = input.length - cur := by
  intro fuel
  induction fuel with
  | zero => intro cur h; simp [scanGo, esSize]; omega
  | succ fuel ih =>
    intro cur h
    simp only [scanGo]
    split
    · rename_i hcur
      have hlo : cur - mo ≤ cur := Nat.sub_le cur mo
      obtain ⟨-, -, -, hBrest⟩ := findMatch_len_le_offset input (cur - mo) cur mm hlo
      split
      · rename_i hB
        simp only [esSize]
        rw [ih _ (by omega)]
        omega
      · simp only [esSize]
        rw [ih _ (by omega)]
        omega
    · simp [esSize]
      omega

theorem scanGo_lits_mem (input : Bytes) (mo mm : Nat) :
    ∀ fuel cur v, v ∈ litsOf (scanGo input mo mm cur fuel) → v ∈ input := by
  intro fuel
  induction fuel with
  | zero => intro cur v h; simp [scanGo, litsOf] at h
  | succ fuel ih =>
    intro cur v h
    simp only [scanGo] at h
    split at h
    · rename_i hcur
      split at h
      · exact ih _ v (by simpa [litsOf] using h)
      · simp only [litsOf] at h
        rcases List.mem_cons.1 h with he | hmem
        · subst he
          rw [List.getD_eq_getElem input 0 hcur]
          exact List.getElem_mem hcur
        · exact ih _ v hmem
    · simp [litsOf] at h

theorem slice_eq (input : Bytes) (cur off len : Nat) (hoff : off ≤ cur) (hlen : len ≤ off)
    (hcur : cur + len ≤ input.length)
    (heq : ∀ j < len, input.getD (cur - off + j) 0 = input.getD (cur + j) 0) :
    ((input.take cur).drop (cur - off)).take len = (input.drop cur).take len := by
  have hcurN : cur ≤ input.length := by omega
  have hlenL : (((input.take cur).drop (cur - off)).take len).length = len := by
    simp [List.length_take, List.length_drop]
    omega
  have hlenR : ((input.drop cur).take len).length = len := by
    simp [List.length_take, List.length_drop]
    omega
  refine List.ext_getElem ?_ ?_
  · omega
  intro j hj1 hj2
  have hjlen : j < len := by omega
  have hb1 : cur - off + j < input.length := by omega
  have hb2 : cur + j < input.length := by omega
  have e1 : (((input.take cur).drop (cur - off)).take len)[j] =
      input.get ⟨cur - off + j, hb1⟩ := by
    rw [List.getElem_take, List.getElem_drop, List.getElem_take]
    rfl
  have e2 : ((input.drop cur).take len)[j] = input.get ⟨cur + j, hb2⟩ := by
    rw [List.getElem_take, List.getElem_drop]
    rfl
  rw [e1, e2]
  exact ((List.getD_eq_getElem input 0 hb1).symm.trans (heq j hjlen)).trans
    (List.getD_eq_getElem input 0 hb2)

theorem scanGo_replay (input : Bytes) (mo mm : Nat) :
    ∀ fuel cur, cur ≤ input.length → input.length ≤ cur + fuel →
      replayList (input.take cur) (scanGo input mo mm cur fuel) = some input := by
  intro fuel
  induction fuel with
  | zero =>
    intro cur h1 h2
    have : cur = input.length := by omega
    subst this
    simp [scanGo, replayList]
  | succ fuel ih =>
    intro cur h1 h2
    simp only [scanGo]
    split
    · rename_i hcur
      have hlo : cur - mo ≤ cur := Nat.sub_le cur mo
      obtain ⟨hBO, hO, hBmm, hBrest⟩ := findMatch_len_le_offset input (cur - mo) cur mm hlo
      split
      · rename_i hB
        simp only [replayList, replayElem]
        have hoffcur : (findMatch input (cur - mo) cur mm).2 ≤ cur := by omega
        have hlt : (findMatch input (cur - mo) cur mm).2 ≤ (input.take cur).length := by
          simp [List.length_take]
          omega
        rw [if_pos ⟨hlt, by omega⟩]
        have htl : (input.take cur).length = cur := by
          simp [List.length_take]
          omega
        have hslice : ((input.take cur).drop ((input.take cur).length -
            (findMatch input (cur - mo) cur mm).2)).take (findMatch input (cur - mo) cur mm).1 =
            (input.drop cur).take (findMatch input (cur - mo) cur mm).1 := by
          rw [htl]
          exact slice_eq input cur _ _ hoffcur (by omega) (by omega)
            (findMatch_eqBytes input (cur - mo) cur mm hlo)
        rw [hslice, ← List.take_add]
        exact ih _ (by omega) (by omega)
      · rename_i hB
        simp only [replayList, replayElem]
        have he : input.take cur ++ [input.getD cur 0] = input.take (cur + 1) := by
          rw [List.take_add]
          congr 1
          rw [List.getD_eq_getElem input 0 hcur]
          rw [List.take_one, List.head?_drop]
          simp [List.getElem?_eq_getElem hcur]
        rw [he]
        exact ih _ (by omega) (by omega)
    · rename_i hcur
      have : cur = input.length := by omega
      subst this
      simp [replayList]

theorem scanGo_noRepeat (input : Bytes) (mo mm : Nat) (hnr : NoRepeat3 input mo) :
    ∀ fuel cur, scanGo input mo mm cur fuel = ((input.drop cur).take fuel).map Elem.lit := by
  intro fuel
  induction fuel with
  | zero => intro cur; simp [scanGo]
  | succ fuel ih =>
    intro cur
    simp only [scanGo]
    split
    · rename_i hcur
      have hlo : cur - mo ≤ cur := Nat.sub_le cur mo
      have hB2 : (findMatch input (cur - mo) cur mm).1 ≤ 2 := by
        by_contra hc
        obtain ⟨⟨u, hu1, hu2, hu3, hu4⟩, -, -⟩ := findMatch_spec input (cur - mo) cur mm hlo
        have h0 := matchLen_conds input u cur mm (j := 0) (by omega)
        have h1 := matchLen_conds input u cur mm (j := 1) (by omega)
        have h2 := matchLen_conds input u cur mm (j := 2) (by omega)
        refine hnr cur hcur u (by omega) ⟨by omega, by omega, by omega, ?_, ?_, ?_⟩
        · simpa using h0.1
        · exact h1.1
        · exact h2.1
      rw [if_neg (by omega)]
      have hdrop : input.drop cur = input[cur] :: input.drop (cur + 1) :=
        List.drop_eq_getElem_cons hcur
      rw [hdrop]
      simp only [List.take_succ_cons, List.map_cons]
      congr 1
      · rw [List.getD_eq_getElem input 0 hcur]
      · exact ih (cur + 1)
    · rename_i hcur
      have : input.drop cur = [] := by
        simp [List.drop_eq_nil_iff]
        omega
      simp [this]

end LZSS

namespace LZSS

/-! ### Step-function field lemmas -/

theorem emitFlag1_nextOff (st : EncState) : (emitFlag1 st).nextOff = st.nextOff := rfl

theorem emitFlag0_nextOff (st : EncState) : (emitFlag0 st).nextOff = st.nextOff := rfl

theorem addString_nextOff (ls a b : Nat) (st : EncState) :
    (addString ls a b st).nextOff = st.nextOff := by
  unfold addString
  by_cases h : st.stringCount + 1 = 2 <;> simp [h]

theorem addByte_nextOff (v : Nat) (st : EncState) :
    (addByte v st).nextOff = st.nextOff := by
  unfold addByte
  by_cases h : st.byteCount + 1 = 4 <;> simp [h]

theorem emitFlag1_out_length (st : EncState) :
    (emitFlag1 st).out.length = st.out.length := by
  unfold emitFlag1
  simp only []
  split <;> simp [setAt_length]

theorem emitFlag0_out_length (st : EncState) :
    (emitFlag0 st).out.length = st.out.length := by
  unfold emitFlag0
  simp only []
  split <;> simp [setAt_length]

theorem addString_out_length (ls a b : Nat) (st : EncState) :
    (addString ls a b st).out.length = st.out.length := by
  unfold addString
  by_cases h : st.stringCount + 1 = 2 <;> simp [h, setAt_length]

theorem addByte_out_length (v : Nat) (st : EncState) :
    (addByte v st).out.length = st.out.length := by
  unfold addByte
  by_cases h : st.byteCount + 1 = 4 <;> simp [h, setAt_length]

theorem emitFlag1_stringCount (st : EncState) : (emitFlag1 st).stringCount = st.stringCount := rfl

theorem emitFlag1_byteCount (st : EncState) : (emitFlag1 st).byteCount = st.byteCount := rfl

theorem emitFlag0_stringCount (st : EncState) : (emitFlag0 st).stringCount = st.stringCount := rfl

theorem emitFlag0_byteCount (st : EncState) : (emitFlag0 st).byteCount = st.byteCount := rfl

theorem reserveBits_nextOff (st : EncState) : (reserveBits st).nextOff = st.nextOff + 4 := rfl

theorem reserveStrings_nextOff (st : EncState) :
    (reserveStrings st).nextOff = st.nextOff + 4 := rfl

theorem reserveBytes_nextOff (st : EncState) : (reserveBytes st).nextOff = st.nextOff + 4 := rfl

theorem packElem_nextOff_ge (ls : Nat) (st : EncState) (e : Elem) :
    st.nextOff ≤ (packElem ls st e).nextOff := by
  cases e with
  | str off len =>
    simp only [packElem]
    rw [addString_nextOff]
    split <;> split <;>
      simp only [reserveStrings_nextOff, emitFlag1_nextOff, reserveBits_nextOff] <;> omega
  | lit v =>
    simp only [packElem]
    rw [addByte_nextOff]
    split <;> split <;>
      simp only [reserveBytes_nextOff, emitFlag0_nextOff, reserveBits_nextOff] <;> omega

theorem packList_nextOff_ge (ls : Nat) :
    ∀ es st, st.nextOff ≤ (packList ls st es).nextOff := by
  intro es
  induction es with
  | nil => intro st; exact Nat.le_refl _
  | cons e es ih =>
    intro st
    calc st.nextOff ≤ (packElem ls st e).nextOff := packElem_nextOff_ge ls st e
    _ ≤ (packList ls (packElem ls st e) es).nextOff := ih _
    _ = (packList ls st (e :: es)).nextOff := rfl

/-! ### Fusion: the compression loop is the scan followed by packing -/

theorem compressLoop_ok_eq (input : Bytes) (outLen mo mm ls : Nat) :
    ∀ fuel cur st st', compressLoop input outLen mo mm ls cur st fuel = .ok st' →
      st' = packList ls st (scanGo input mo mm cur fuel) := by
  intro fuel
  induction fuel with
  | zero =>
    intro cur st st' h
    simp only [compressLoop] at h
    cases h
    simp [scanGo, packList]
  | succ fuel ih =>
    intro cur st st' h
    simp only [compressLoop] at h
    by_cases hcur : cur < input.length
    · rw [if_pos hcur] at h
      by_cases hck1 : st.bitMask = 0 ∧ st.nextOff = outLen
      · rw [if_pos hck1] at h
        exact Except.noConfusion h
      · rw [if_neg hck1] at h
        by_cases hB : 2 < (findMatch input (cur - mo) cur mm).1
        · rw [if_pos hB] at h
          by_cases hck2 : (emitFlag1 (if st.bitMask = 0 then reserveBits st
              else st)).stringCount = 0 ∧
              (emitFlag1 (if st.bitMask = 0 then reserveBits st else st)).nextOff = outLen
          · rw [if_pos hck2] at h
            exact Except.noConfusion h
          · rw [if_neg hck2] at h
            have hrec := ih _ _ _ h
            simp only [scanGo, if_pos hcur, if_pos hB, packList]
            exact hrec
        · rw [if_neg hB] at h
          by_cases hck2 : (emitFlag0 (if st.bitMask = 0 then reserveBits st
              else st)).byteCount = 0 ∧
              (emitFlag0 (if st.bitMask = 0 then reserveBits st else st)).nextOff = outLen
          · rw [if_pos hck2] at h
            exact Except.noConfusion h
          · rw [if_neg hck2] at h
            have hrec := ih _ _ _ h
            simp only [scanGo, if_pos hcur, if_neg hB, packList]
            exact hrec
    · rw [if_neg hcur] at h
      cases h
      simp [scanGo, if_neg hcur, packList]

theorem compressLoop_complete (input : Bytes) (outLen mo mm ls : Nat) :
    ∀ fuel cur st, (packList ls st (scanGo input mo mm cur fuel)).nextOff ≤ outLen →
      compressLoop input outLen mo mm ls cur st fuel =
        .ok (packList ls st (scanGo input mo mm cur fuel)) := by
  intro fuel
  induction fuel with
  | zero =>
    intro cur st h
    simp [compressLoop, scanGo, packList]
  | succ fuel ih =>
    intro cur st h
    by_cases hcur : cur < input.length
    · by_cases hB : 2 < (findMatch input (cur - mo) cur mm).1
      · have hes : scanGo input mo mm cur (fuel+1) =
            .str (findMatch input (cur - mo) cur mm).2 (findMatch input (cur - mo) cur mm).1 ::
            scanGo input mo mm (cur + (findMatch input (cur - mo) cur mm).1) fuel := by
          simp only [scanGo, if_pos hcur, if_pos hB]
        rw [hes] at h ⊢
        simp only [packList] at h ⊢
        set e : Elem := .str (findMatch input (cur - mo) cur mm).2
          (findMatch input (cur - mo) cur mm).1 with he
        have hmono := packList_nextOff_ge ls
          (scanGo input mo mm (cur + (findMatch input (cur - mo) cur mm).1) fuel)
          (packElem ls st e)
        -- the element's own reservations
        have hck1 : ¬(st.bitMask = 0 ∧ st.nextOff = outLen) := by
          rintro ⟨h1, h2⟩
          have h3 : st.nextOff + 4 ≤ (packElem ls st e).nextOff := by
            rw [he]
            simp only [packElem, if_pos h1]
            rw [addString_nextOff]
            split <;>
              simp only [reserveStrings_nextOff, emitFlag1_nextOff, reserveBits_nextOff] <;>
              omega
          omega
        simp only [compressLoop, if_pos hcur, if_neg hck1, if_pos hB]
        have hck2 : ¬((emitFlag1 (if st.bitMask = 0 then reserveBits st
            else st)).stringCount = 0 ∧
            (emitFlag1 (if st.bitMask = 0 then reserveBits st else st)).nextOff = outLen) := by
          rintro ⟨h1, h2⟩
          have h3 : (emitFlag1 (if st.bitMask = 0 then reserveBits st else st)).nextOff + 4 ≤
              (packElem ls st e).nextOff := by
            rw [he]
            simp only [packElem]
            rw [addString_nextOff, if_pos h1]
            rfl
          have h4 : st.nextOff ≤ (emitFlag1 (if st.bitMask = 0 then reserveBits st
              else st)).nextOff := by
            rw [emitFlag1_nextOff]
            split <;> simp [reserveBits]
          omega
        rw [if_neg hck2]
        have hpe : addString ls (findMatch input (cur - mo) cur mm).1
            (findMatch input (cur - mo) cur mm).2
            (if (emitFlag1 (if st.bitMask = 0 then reserveBits st else st)).stringCount = 0
             then reserveStrings (emitFlag1 (if st.bitMask = 0 then reserveBits st else st))
             else emitFlag1 (if st.bitMask = 0 then reserveBits st else st)) =
            packElem ls st e := by
          rw [he]; rfl
        rw [hpe]
        exact ih _ _ h
      · have hes : scanGo input mo mm cur (fuel+1) =
            .lit (input.getD cur 0) :: scanGo input mo mm (cur + 1) fuel := by
          simp only [scanGo, if_pos hcur, if_neg hB]
        rw [hes] at h ⊢
        simp only [packList] at h ⊢
        set e : Elem := .lit (input.getD cur 0) with he
        have hmono := packList_nextOff_ge ls (scanGo input mo mm (cur + 1) fuel)
          (packElem ls st e)
        have hck1 : ¬(st.bitMask = 0 ∧ st.nextOff = outLen) := by
          rintro ⟨h1, h2⟩
          have h3 : st.nextOff + 4 ≤ (packElem ls st e).nextOff := by
            rw [he]
            simp only [packElem, if_pos h1]
            rw [addByte_nextOff]
            split <;>
              simp only [reserveBytes_nextOff, emitFlag0_nextOff, reserveBits_nextOff] <;>
              omega
          omega
        simp only [compressLoop, if_pos hcur, if_neg hck1, if_neg hB]
        have hck2 : ¬((emitFlag0 (if st.bitMask = 0 then reserveBits st
            else st)).byteCount = 0 ∧
            (emitFlag0 (if st.bitMask = 0 then reserveBits st else st)).nextOff = outLen) := by
          rintro ⟨h1, h2⟩
          have h3 : (emitFlag0 (if st.bitMask = 0 then reserveBits st else st)).nextOff + 4 ≤
              (packElem ls st e).nextOff := by
            rw [he]
            simp only [packElem]
            rw [addByte_nextOff, if_pos h1]
            rfl
          have h4 : st.nextOff ≤ (emitFlag0 (if st.bitMask = 0 then reserveBits st
              else st)).nextOff := by
            rw [emitFlag0_nextOff]
            split <;> simp [reserveBits]
          omega
        rw [if_neg hck2]
        have hpe : addByte (input.getD cur 0)
            (if (emitFlag0 (if st.bitMask = 0 then reserveBits st else st)).byteCount = 0
             then reserveBytes (emitFlag0 (if st.bitMask = 0 then reserveBits st else st))
             else emitFlag0 (if st.bitMask = 0 then reserveBits st else st)) =
            packElem ls st e := by
          rw [he]; rfl
        rw [hpe]
        exact ih _ _ h
    · simp [compressLoop, scanGo, if_neg hcur, packList]

end LZSS

namespace LZSS

/-! ### Write-cursor invariant (word-aligned buffers never overflow) -/

theorem reserveBits_out_length (st : EncState) :
    (reserveBits st).out.length = st.out.length + 1 := by
  simp [reserveBits]

theorem reserveStrings_out_length (st : EncState) :
    (reserveStrings st).out.length = st.out.length + 1 := by
  simp [reserveStrings]

theorem reserveBytes_out_length (st : EncState) :
    (reserveBytes st).out.length = st.out.length + 1 := by
  simp [reserveBytes]

theorem packFinish_nextOff (st : EncState) : (packFinish st).nextOff = st.nextOff := by
  simp only [packFinish]
  split <;> split <;> split <;> rfl

theorem packFinish_out_length (st : EncState) :
    (packFinish st).out.length = st.out.length := by
  simp only [packFinish]
  split <;> split <;> split <;> simp [setAt_length]

theorem compressLoop_inv (input : Bytes) (outLen mo mm ls : Nat) (h4 : outLen % 4 = 0) :
    ∀ fuel cur st st', st.nextOff % 4 = 0 → st.nextOff ≤ outLen →
      st.nextOff = 8 + 4 * st.out.length →
      (compressLoop input outLen mo mm ls cur st fuel = .ok st' ∨
       compressLoop input outLen mo mm ls cur st fuel = .error st') →
      st'.nextOff % 4 = 0 ∧ st'.nextOff ≤ outLen ∧ st'.nextOff = 8 + 4 * st'.out.length := by
  intro fuel
  induction fuel with
  | zero =>
    intro cur st st' ha hb hc h
    rcases h with h | h <;> simp only [compressLoop] at h
    · cases h; exact ⟨ha, hb, hc⟩
    · exact Except.noConfusion h
  | succ fuel ih =>
    intro cur st st' ha hb hc h
    by_cases hcur : cur < input.length
    · by_cases hck1 : st.bitMask = 0 ∧ st.nextOff = outLen
      · rcases h with h | h <;> simp only [compressLoop, if_pos hcur, if_pos hck1] at h
        · exact Except.noConfusion h
        · cases h; exact ⟨ha, hb, hc⟩
      · have h1a : (if st.bitMask = 0 then reserveBits st else st).nextOff % 4 = 0 := by
          by_cases hm : st.bitMask = 0
          · rw [if_pos hm, reserveBits_nextOff]; omega
          · rw [if_neg hm]; exact ha
        have h1b : (if st.bitMask = 0 then reserveBits st else st).nextOff ≤ outLen := by
          by_cases hm : st.bitMask = 0
          · rw [if_pos hm, reserveBits_nextOff]
            have : st.nextOff ≠ outLen := fun he => hck1 ⟨hm, he⟩
            omega
          · rw [if_neg hm]; exact hb
        have h1c : (if st.bitMask = 0 then reserveBits st else st).nextOff =
            8 + 4 * (if st.bitMask = 0 then reserveBits st else st).out.length := by
          by_cases hm : st.bitMask = 0
          · rw [if_pos hm, reserveBits_nextOff, reserveBits_out_length]
            omega
          · rw [if_neg hm]; exact hc
        set st1 := if st.bitMask = 0 then reserveBits st else st with hst1d
        by_cases hB : 2 < (findMatch input (cur - mo) cur mm).1
        · have h2a : (emitFlag1 st1).nextOff % 4 = 0 := by rw [emitFlag1_nextOff]; exact h1a
          have h2b : (emitFlag1 st1).nextOff ≤ outLen := by rw [emitFlag1_nextOff]; exact h1b
          have h2c : (emitFlag1 st1).nextOff = 8 + 4 * (emitFlag1 st1).out.length := by
            rw [emitFlag1_nextOff, emitFlag1_out_length]; exact h1c
          by_cases hck2 : (emitFlag1 st1).stringCount = 0 ∧ (emitFlag1 st1).nextOff = outLen
          · rcases h with h | h <;>
              simp only [compressLoop, if_pos hcur, if_neg hck1, if_pos hB, ← hst1d,
                if_pos hck2] at h
            · exact Except.noConfusion h
            · cases h; exact ⟨h2a, h2b, h2c⟩
          · have h3a : (addString ls (findMatch input (cur - mo) cur mm).1
                (findMatch input (cur - mo) cur mm).2
                (if (emitFlag1 st1).stringCount = 0 then reserveStrings (emitFlag1 st1)
                 else emitFlag1 st1)).nextOff % 4 = 0 := by
              rw [addString_nextOff]
              by_cases hsc : (emitFlag1 st1).stringCount = 0
              · rw [if_pos hsc, reserveStrings_nextOff]; omega
              · rw [if_neg hsc]; exact h2a
            have h3b : (addString ls (findMatch input (cur - mo) cur mm).1
                (findMatch input (cur - mo) cur mm).2
                (if (emitFlag1 st1).stringCount = 0 then reserveStrings (emitFlag1 st1)
                 else emitFlag1 st1)).nextOff ≤ outLen := by
              rw [addString_nextOff]
              by_cases hsc : (emitFlag1 st1).stringCount = 0
              · rw [if_pos hsc, reserveStrings_nextOff]
                have : (emitFlag1 st1).nextOff ≠ outLen := fun he => hck2 ⟨hsc, he⟩
                omega
              · rw [if_neg hsc]; exact h2b
            have h3c : (addString ls (findMatch input (cur - mo) cur mm).1
                (findMatch input (cur - mo) cur mm).2
                (if (emitFlag1 st1).stringCount = 0 then reserveStrings (emitFlag1 st1)
                 else emitFlag1 st1)).nextOff = 8 + 4 * (addString ls
                (findMatch input (cur - mo) cur mm).1 (findMatch input (cur - mo) cur mm).2
                (if (emitFlag1 st1).stringCount = 0 then reserveStrings (emitFlag1 st1)
                 else emitFlag1 st1)).out.length := by
              rw [addString_nextOff, addString_out_length]
              by_cases hsc : (emitFlag1 st1).stringCount = 0
              · rw [if_pos hsc, reserveStrings_nextOff, reserveStrings_out_length]
                omega
              · rw [if_neg hsc]; exact h2c
            rcases h with h | h <;>
              simp only [compressLoop, if_pos hcur, if_neg hck1, if_pos hB, ← hst1d,
                if_neg hck2] at h
            · exact ih _ _ st' h3a h3b h3c (Or.inl h)
            · exact ih _ _ st' h3a h3b h3c (Or.inr h)
        · have h2a : (emitFlag0 st1).nextOff % 4 = 0 := by rw [emitFlag0_nextOff]; exact h1a
          have h2b : (emitFlag0 st1).nextOff ≤ outLen := by rw [emitFlag0_nextOff]; exact h1b
          have h2c : (emitFlag0 st1).nextOff = 8 + 4 * (emitFlag0 st1).out.length := by
            rw [emitFlag0_nextOff, emitFlag0_out_length]; exact h1c
          by_cases hck2 : (emitFlag0 st1).byteCount = 0 ∧ (emitFlag0 st1).nextOff = outLen
          · rcases h with h | h <;>
              simp only [compressLoop, if_pos hcur, if_neg hck1, if_neg hB, ← hst1d,
                if_pos hck2] at h
            · exact Except.noConfusion h
            · cases h; exact ⟨h2a, h2b, h2c⟩
          · have h3a : (addByte (input.getD cur 0)
                (if (emitFlag0 st1).byteCount = 0 then reserveBytes (emitFlag0 st1)
                 else emitFlag0 st1)).nextOff % 4 = 0 := by
              rw [addByte_nextOff]
              by_cases hbc : (emitFlag0 st1).byteCount = 0
              · rw [if_pos hbc, reserveBytes_nextOff]; omega
              · rw [if_neg hbc]; exact h2a
            have h3b : (addByte (input.getD cur 0)
                (if (emitFlag0 st1).byteCount = 0 then reserveBytes (emitFlag0 st1)
                 else emitFlag0 st1)).nextOff ≤ outLen := by
              rw [addByte_nextOff]
              by_cases hbc : (emitFlag0 st1).byteCount = 0
              · rw [if_pos hbc, reserveBytes_nextOff]
                have : (emitFlag0 st1).nextOff ≠ outLen := fun he => hck2 ⟨hbc, he⟩
                omega
              · rw [if_neg hbc]; exact h2b
            have h3c : (addByte (input.getD cur 0)
                (if (emitFlag0 st1).byteCount = 0 then reserveBytes (emitFlag0 st1)
                 else emitFlag0 st1)).nextOff = 8 + 4 * (addByte (input.getD cur 0)
                (if (emitFlag0 st1).byteCount = 0 then reserveBytes (emitFlag0 st1)
                 else emitFlag0 st1)).out.length := by
              rw [addByte_nextOff, addByte_out_length]
              by_cases hbc : (emitFlag0 st1).byteCount = 0
              · rw [if_pos hbc, reserveBytes_nextOff, reserveBytes_out_length]
                omega
              · rw [if_neg hbc]; exact h2c
            rcases h with h | h <;>
              simp only [compressLoop, if_pos hcur, if_neg hck1, if_neg hB, ← hst1d,
                if_neg hck2] at h
            · exact ih _ _ st' h3a h3b h3c (Or.inl h)
            · exact ih _ _ st' h3a h3b h3c (Or.inr h)
    · rcases h with h | h <;> simp only [compressLoop, if_neg hcur] at h
      · cases h; exact ⟨ha, hb, hc⟩
      · exact Except.noConfusion h

/-- Destructure a successful `compress`: the validations passed and the
result is the finished packing of the scan. -/
theorem compress_ok_dest {input : Bytes} {outLen d len : Nat} {ws : List Nat}
    (h : compress input outLen d = .ok len ws) :
    d &&& (d - 1) = 0 ∧ 4 ≤ d ∧ d ≤ 16384 ∧ 8 ≤ outLen ∧
    len = (packFinish (packList (lengthShiftOf d) initEnc
      (scanElems input (d+2) (65536/d + 2)))).nextOff ∧
    ws = writeHeader input.length d ++ (packFinish (packList (lengthShiftOf d) initEnc
      (scanElems input (d+2) (65536/d + 2)))).out := by
  unfold compress at h
  by_cases h1 : d &&& (d - 1) ≠ 0
  · rw [if_pos h1] at h; exact CompressResult.noConfusion h
  rw [if_neg h1] at h
  by_cases h2 : d < 4
  · rw [if_pos h2] at h; exact CompressResult.noConfusion h
  rw [if_neg h2] at h
  by_cases h3 : 16384 < d
  · rw [if_pos h3] at h; exact CompressResult.noConfusion h
  rw [if_neg h3] at h
  by_cases h4 : outLen < 8
  · rw [if_pos h4] at h; exact CompressResult.noConfusion h
  rw [if_neg h4] at h
  simp only [] at h
  rcases hres : compressLoop input outLen (d+2) (65536/d + 2) (lengthShiftOf d) 0 initEnc
      input.length with stE | stO
  · rw [hres] at h
    exact CompressResult.noConfusion h
  · rw [hres] at h
    have hpack := compressLoop_ok_eq input outLen (d+2) (65536/d + 2) (lengthShiftOf d)
      input.length 0 initEnc stO hres
    injection h with hlen hws
    subst hpack
    refine ⟨by omega, by omega, by omega, by omega, ?_, ?_⟩
    · rw [← hlen]; rfl
    · rw [← hws]; rfl

end LZSS

namespace LZSS

/-! ### Value lemmas for the packed words -/

theorem flagBits_nil (n : Nat) : flagBits n [] = 0 := by cases n <;> rfl

theorem byteBits_nil (n : Nat) : byteBits n [] = 0 := by cases n <;> rfl

theorem flagBits_lt (es : List Elem) : ∀ n, flagBits n es < 2^n := by
  induction es with
  | nil => intro n; rw [flagBits_nil]; exact Nat.two_pow_pos n
  | cons e es ih =>
    intro n
    cases n with
    | zero => simp [flagBits]
    | succ n =>
      have := ih n
      cases e <;> simp only [flagBits] <;> rw [Nat.pow_succ] <;> omega

theorem tokenOf_lt {ls : Nat} {t : Nat × Nat} (hls : ls ≤ 16) (h : tokOK ls t) :
    tokenOf ls t < 2^16 := by
  obtain ⟨h1, h2, h3, h4⟩ := h
  unfold tokenOf
  rw [shiftLeft_mul]
  have hsplit := two_pow_split hls
  have key : (t.2 - 3) * 2^ls + 2^ls ≤ 2^16 := by
    have hstep : ((t.2 - 3) + 1) * 2^ls ≤ 2^(16-ls) * 2^ls :=
      Nat.mul_le_mul_right _ (by omega)
    rw [Nat.add_mul, Nat.one_mul] at hstep
    rw [Nat.mul_comm] at hsplit
    have e16 : (2:Nat)^16 = 65536 := by norm_num
    omega
  omega

theorem tokenHead_lt {ls : Nat} {ts : List (Nat × Nat)} (hls : ls ≤ 16)
    (h : ∀ t ∈ ts, tokOK ls t) : tokenHead ls ts < 2^16 := by
  cases ts with
  | nil => simp [tokenHead]
  | cons t ts => exact tokenOf_lt hls (h t (List.mem_cons_self t ts))

/-- Decoding the two packed fields out of a string register
`tokenOf ls (off, len) + 2^16 * u`. -/
theorem token_extract {ls off len u : Nat} (hls : ls ≤ 16)
    (h1 : 3 ≤ off) (h2 : off - 3 < 2^ls) (h3 : 3 ≤ len) (h4 : len - 3 < 2^(16-ls)) :
    ((tokenOf ls (off, len) + 2^16 * u) &&& (2^ls - 1)) + 3 = off ∧
    (((tokenOf ls (off, len) + 2^16 * u) >>> ls) &&& (2^(16-ls) - 1)) + 3 = len ∧
    (tokenOf ls (off, len) + 2^16 * u) >>> 16 = u := by
  have hsplit := two_pow_split hls
  have hform : tokenOf ls (off, len) + 2^16 * u =
      (off - 3) + 2^ls * ((len - 3) + 2^(16-ls) * u) := by
    unfold tokenOf
    rw [shiftLeft_mul]
    ring_nf
    rw [← hsplit]
    ring
  refine ⟨?_, ?_, ?_⟩
  · rw [hform, and_mask_eq_mod, Nat.add_mul_mod_self_left, Nat.mod_eq_of_lt h2]
    omega
  · rw [hform, shiftRight_div, Nat.add_mul_div_left _ _ (Nat.two_pow_pos ls),
      Nat.div_eq_of_lt h2, and_mask_eq_mod, Nat.zero_add, Nat.add_mul_mod_self_left,
      Nat.mod_eq_of_lt h4]
    omega
  · rw [shiftRight_div]
    have htok : tokenOf ls (off, len) < 2^16 := tokenOf_lt hls ⟨h1, h2, h3, h4⟩
    rw [Nat.add_mul_div_left _ _ (Nat.two_pow_pos 16), Nat.div_eq_of_lt htok]
    omega

theorem byteBits_lt {lits : List Nat} (h : ∀ v ∈ lits, v < 256) :
    ∀ n, byteBits n lits < 2^(8*n) := by
  induction lits with
  | nil => intro n; rw [byteBits_nil]; exact Nat.two_pow_pos _
  | cons v vs ih =>
    intro n
    cases n with
    | zero => simp [byteBits]
    | succ n =>
      have hv : v < 256 := h v (List.mem_cons_self v vs)
      have hvs := ih (fun x hx => h x (List.mem_cons_of_mem v hx)) n
      simp only [byteBits]
      have e1 : 8 * (n + 1) = 8 * n + 8 := by ring
      rw [e1, Nat.pow_add]
      have e2 : (2:Nat)^8 = 256 := by norm_num
      calc v + 256 * byteBits n vs ≤ 255 + 256 * (2^(8*n) - 1) := by
            have h256 : (1:Nat) ≤ 2^(8*n) := Nat.one_le_two_pow
            have : byteBits n vs ≤ 2^(8*n) - 1 := by omega
            have := Nat.mul_le_mul_left 256 this
            omega
      _ < 2^(8*n) * 2^8 := by
            rw [Nat.mul_sub_one, e2]
            have h256 : (256:Nat) ≤ 256 * 2^(8*n) := by
              have : (1:Nat) ≤ 2^(8*n) := Nat.one_le_two_pow
              calc (256:Nat) = 256 * 1 := by norm_num
              _ ≤ 256 * 2^(8*n) := Nat.mul_le_mul_left 256 this
            have e3 : 2^(8*n) * 2^8 = 256 * 2^(8*n) := by rw [e2]; ring
            omega

end LZSS

namespace LZSS

theorem setAt_pair0 (A : List Nat) (x y v : Nat) :
    setAt (A ++ [x, y]) A.length v = A ++ [v, y] := by
  simpa using setAt_append_right A [x, y] 0 v

theorem setAt_pair1 (A : List Nat) (x y v : Nat) :
    setAt (A ++ [x, y]) (A.length + 1) v = A ++ [x, v] := by
  simpa [setAt] using setAt_append_right A [x, y] 1 v

theorem packSerial (ls : Nat) (hls : ls ≤ 14) :
    ∀ es st p s b, EncCon st p s b →
      (∀ t ∈ strsOf es, tokOK ls t) →
      (∀ v ∈ litsOf es, v < 256) →
      (packFinish (packList ls st es)).out = completeOut ls st p s b es := by
  intro es
  induction es with
  | nil =>
    intro st p s b hcon htok hlit
    obtain ⟨hp, hs, hb, hmask, hbits, hsc, hstr, hbc, hbytes, hnb, hns, hnB, hd1, hd2, hd3⟩ :=
      hcon
    have hone : completeOut ls st p s b [] =
        (if s = 0
         then (if b = 0 then (if p = 0 then st.out else setAt st.out st.nextBits st.bits)
               else setAt (if p = 0 then st.out else setAt st.out st.nextBits st.bits)
                 st.nextBytes st.bytes)
         else setAt (if b = 0 then (if p = 0 then st.out else setAt st.out st.nextBits st.bits)
               else setAt (if p = 0 then st.out else setAt st.out st.nextBits st.bits)
                 st.nextBytes st.bytes) st.nextStrings st.strings) := by
      simp only [completeOut, futureWords, flagBits_nil, byteBits_nil, strsOf, litsOf,
        tokenHead, Nat.mul_zero, Nat.add_zero, List.append_nil]
    rw [packList, hone]
    simp only [packFinish]
    by_cases hp0 : p = 0
    · have hm : st.bitMask = 0 := by rw [hmask, if_pos hp0]
      rw [if_pos hp0]
      simp only [hm, ne_eq, not_true_eq_false, if_false]
      by_cases hb0 : b = 0 <;> by_cases hs0 : s = 0 <;>
        simp [hb0, hs0, hsc, hbc]
    · have hm2 : st.bitMask ≠ 0 := by
        rw [hmask, if_neg hp0]
        have := Nat.two_pow_pos p
        omega
      rw [if_neg hp0]
      simp only [ne_eq, hm2, not_false_eq_true, if_true]
      by_cases hb0 : b = 0 <;> by_cases hs0 : s = 0 <;>
        simp [hb0, hs0, hsc, hbc]
  | cons e es ih =>
    intro st p s b hcon htok hlit
    obtain ⟨hp, hs, hb, hmask, hbits, hsc, hstr, hbc, hbytes, hnb, hns, hnB, hd1, hd2, hd3⟩ :=
      hcon
    cases e with
    | str off len =>
      have htokhd : tokOK ls (off, len) := htok _ (by simp [strsOf])
      have htok2 : ∀ t ∈ strsOf es, tokOK ls t := fun t ht => htok t (by simp [strsOf, ht])
      have hlit2 : ∀ v ∈ litsOf es, v < 256 := by simpa [litsOf] using hlit
      rw [show packList ls st (.str off len :: es) =
        packList ls (packElem ls st (.str off len)) es from rfl]
      by_cases hp0 : p = 0
      · subst hp0
        have hm : st.bitMask = 0 := by rw [hmask]; rfl
        by_cases hs0 : s = 0
        · subst hs0
          have hst4 : packElem ls st (.str off len) =
              ⟨(st.out ++ [0]) ++ [0], st.nextOff + 4 + 4, st.out.length, 1, 2,
               st.out.length + 1, tokenOf ls (off, len), 1,
               st.nextBytes, st.bytes, st.byteCount⟩ := by
            simp [packElem, reserveBits, emitFlag1, reserveStrings, addString, hm, hsc,
              tokenOf, Nat.shiftLeft_zero]
          rw [hst4, ih _ 1 1 b ?hcon htok2 hlit2]
          case hcon =>
            unfold EncCon
            refine ⟨by omega, by omega, hb, by norm_num, by norm_num, rfl,
              fun h => tokenOf_lt (by omega) htokhd, hbc, hbytes,
              fun h => by show st.out.length < (st.out ++ [0] ++ [0]).length
                          simp,
              fun h => by show st.out.length + 1 < (st.out ++ [0] ++ [0]).length
                          simp,
              fun h => by show st.nextBytes < (st.out ++ [0] ++ [0]).length
                          have := hnB h
                          simp
                          omega,
              fun h1 h2 => by show st.out.length ≠ st.out.length + 1
                              omega,
              fun h1 h2 => by show st.out.length ≠ st.nextBytes
                              have := hnB h2
                              omega,
              fun h1 h2 => by show st.out.length + 1 ≠ st.nextBytes
                              have := hnB h2
                              omega⟩
          by_cases hb0 : b = 0
          · subst hb0
            simp [completeOut, futureWords, litsOf, strsOf, setAt_pair0, setAt_pair1,
              flagWordOf, strWordOf, tokenHead, flagBits, List.append_assoc]
          · have hnY := hnB hb0
            simp [completeOut, futureWords, litsOf, strsOf, if_neg hb0, setAt_pair0,
              flagWordOf, strWordOf, tokenHead, flagBits, List.append_assoc,
              setAt_append_left _ hnY]
            have hAl : st.out.length = (setAt st.out st.nextBytes
                (st.bytes + 2 ^ (8 * b) * byteBits (4 - b) (litsOf es))).length :=
              (setAt_length _ _ _).symm
            rw [hAl, setAt_pair1]
            simp [List.append_assoc]
        · have hs1 : s = 1 := by omega
          have hnS : st.nextStrings < st.out.length := hns (by omega)
          have hstrv : st.strings < 2^16 := hstr (by omega)
          subst hs1
          have hst4 : packElem ls st (.str off len) =
              ⟨setAt st.out st.nextStrings (st.strings + tokenOf ls (off, len) * 65536) ++ [0],
               st.nextOff + 4, st.out.length, 1, 2, st.nextStrings,
               st.strings + tokenOf ls (off, len) * 65536, 0,
               st.nextBytes, st.bytes, st.byteCount⟩ := by
            simp [packElem, reserveBits, emitFlag1, reserveStrings, addString, hm, hsc,
              tokenOf, shiftLeft_mul, setAt_append_left _ hnS]
          rw [hst4, ih _ 1 0 b ?hcon2 htok2 hlit2]
          case hcon2 =>
            unfold EncCon
            refine ⟨by omega, by omega, hb, by norm_num, by norm_num, rfl,
              fun h => absurd rfl h, hbc, hbytes,
              fun h => by show st.out.length < (setAt st.out st.nextStrings
                            (st.strings + tokenOf ls (off, len) * 65536) ++ [0]).length
                          simp [setAt_length],
              fun h => absurd rfl h,
              fun h => by show st.nextBytes < (setAt st.out st.nextStrings
                            (st.strings + tokenOf ls (off, len) * 65536) ++ [0]).length
                          have := hnB h
                          simp [setAt_length]
                          omega,
              fun h1 h2 => absurd rfl h2,
              fun h1 h2 => by show st.out.length ≠ st.nextBytes
                              have := hnB h2
                              omega,
              fun h1 h2 => absurd rfl h1⟩
          by_cases hb0 : b = 0
          · subst hb0
            simp [completeOut, futureWords, litsOf, strsOf,
              flagWordOf, strWordOf, tokenHead, flagBits, List.append_assoc]
            have hAl : st.out.length = (setAt st.out st.nextStrings
                (st.strings + tokenOf ls (off, len) * 65536)).length :=
              (setAt_length _ _ _).symm
            rw [Nat.mul_comm 65536 (tokenOf ls (off, len)), hAl, setAt_snoc]
            simp [List.append_assoc]
          · have hnY := hnB hb0
            have hne : st.nextStrings ≠ st.nextBytes := hd3 (by omega) hb0
            simp [completeOut, futureWords, litsOf, strsOf, if_neg hb0,
              flagWordOf, strWordOf, tokenHead, flagBits, List.append_assoc,
              setAt_append_left _ hnY]
            rw [Nat.mul_comm 65536 (tokenOf ls (off, len))]
            have hAl : st.out.length = (setAt st.out st.nextStrings
                (st.strings + tokenOf ls (off, len) * 65536)).length :=
              (setAt_length _ _ _).symm
            rw [hAl, setAt_snoc,
              setAt_append_left _ (by rw [setAt_length]; exact hnY),
              setAt_comm hne]
            simp [List.append_assoc]
      · have hm : st.bitMask = 2^p := by rw [hmask, if_neg hp0]
        have hbitsv : st.bits < 2^p := hbits hp0
        have hnBi : st.nextBits < st.out.length := hnb hp0
        have hor : st.bits ||| 2^p = st.bits + 2^p := or_two_pow_eq_add p hbitsv
        have hmne : ¬ st.bitMask = 0 := by
          rw [hm]
          have := Nat.two_pow_pos p
          omega
        by_cases hp31 : p = 31
        · subst hp31
          have hwrapL : (2147483648:Nat) <<< 1 % 4294967296 = 0 := by decide
          have horL : st.bits ||| 2147483648 = st.bits + 2147483648 := by
            have h31 : (2:Nat)^31 = 2147483648 := by norm_num
            rw [← h31]
            exact hor
          by_cases hs0 : s = 0
          · subst hs0
            have hst4 : packElem ls st (.str off len) =
                ⟨setAt st.out st.nextBits (st.bits + 2^31) ++ [0],
                 st.nextOff + 4, st.nextBits, st.bits + 2^31, 0,
                 st.out.length, tokenOf ls (off, len), 1,
                 st.nextBytes, st.bytes, st.byteCount⟩ := by
              simp [packElem, reserveBits, emitFlag1, reserveStrings, addString, hm, hmne,
                hsc, tokenOf, shiftLeft_mul, horL, hwrapL, setAt_length]
            rw [hst4, ih _ 0 1 b ?hconW1 htok2 hlit2]
            case hconW1 =>
              unfold EncCon
              refine ⟨by omega, by omega, hb, rfl, fun h => absurd rfl h, rfl,
                fun h => tokenOf_lt (by omega) htokhd, hbc, hbytes,
                fun h => absurd rfl h,
                fun h => by
                  show st.out.length <
                    (setAt st.out st.nextBits (st.bits + 2^31) ++ [0]).length
                  simp [setAt_length],
                fun h => by
                  show st.nextBytes <
                    (setAt st.out st.nextBits (st.bits + 2^31) ++ [0]).length
                  have := hnB h
                  simp [setAt_length]
                  omega,
                fun h1 h2 => absurd rfl h1,
                fun h1 h2 => absurd rfl h1,
                fun h1 h2 => by
                  show st.out.length ≠ st.nextBytes
                  have := hnB h2
                  omega⟩
            by_cases hb0 : b = 0
            · subst hb0
              simp [completeOut, futureWords, litsOf, strsOf,
                flagWordOf, strWordOf, tokenHead, flagBits, List.append_assoc]
              have hAl : st.out.length =
                  (setAt st.out st.nextBits (st.bits + 2147483648)).length :=
                (setAt_length _ _ _).symm
              rw [hAl, setAt_snoc]
              simp [List.append_assoc]
            · have hnY := hnB hb0
              simp [completeOut, futureWords, litsOf, strsOf, if_neg hb0,
                flagWordOf, strWordOf, tokenHead, flagBits, List.append_assoc,
                setAt_append_left _ hnY]
              have hAl : st.out.length =
                  (setAt (setAt st.out st.nextBits (st.bits + 2147483648))
                  st.nextBytes (st.bytes + 2 ^ (8 * b) * byteBits (4 - b) (litsOf es))).length := by
                rw [setAt_length, setAt_length]
              rw [setAt_append_left _ (by rw [setAt_length]; exact hnY), hAl, setAt_snoc]
              simp [List.append_assoc]
          · have hs1 : s = 1 := by omega
            subst hs1
            have hnS : st.nextStrings < st.out.length := hns (by omega)
            have hstrv : st.strings < 2^16 := hstr (by omega)
            have hsc1 : st.stringCount = 1 := hsc
            have hst4 : packElem ls st (.str off len) =
                ⟨setAt (setAt st.out st.nextBits (st.bits + 2^31)) st.nextStrings
                   (st.strings + tokenOf ls (off, len) * 65536),
                 st.nextOff, st.nextBits, st.bits + 2^31, 0,
                 st.nextStrings, st.strings + tokenOf ls (off, len) * 65536, 0,
                 st.nextBytes, st.bytes, st.byteCount⟩ := by
              simp [packElem, reserveBits, emitFlag1, reserveStrings, addString, hm, hmne,
                hsc1, tokenOf, shiftLeft_mul, horL, hwrapL]
            rw [hst4, ih _ 0 0 b ?hconW2 htok2 hlit2]
            case hconW2 =>
              unfold EncCon
              refine ⟨by omega, by omega, hb, rfl, fun h => absurd rfl h, rfl,
                fun h => absurd rfl h, hbc, hbytes,
                fun h => absurd rfl h,
                fun h => absurd rfl h,
                fun h => by
                  show st.nextBytes < (setAt (setAt st.out st.nextBits (st.bits + 2^31))
                    st.nextStrings (st.strings + tokenOf ls (off, len) * 65536)).length
                  rw [setAt_length, setAt_length]
                  exact hnB h,
                fun h1 h2 => absurd rfl h1,
                fun h1 h2 => absurd rfl h1,
                fun h1 h2 => absurd rfl h1⟩
            by_cases hb0 : b = 0
            · subst hb0
              simp [completeOut, futureWords, litsOf, strsOf,
                flagWordOf, strWordOf, tokenHead, flagBits, List.append_assoc]
              rw [Nat.mul_comm 65536 (tokenOf ls (off, len))]
            · have hnY := hnB hb0
              have hne : st.nextStrings ≠ st.nextBytes := hd3 (by omega) hb0
              simp [completeOut, futureWords, litsOf, strsOf, if_neg hb0,
                flagWordOf, strWordOf, tokenHead, flagBits, List.append_assoc]
              rw [Nat.mul_comm 65536 (tokenOf ls (off, len)), setAt_comm hne]
        · have hmid : (2:Nat)^p * 2 % 4294967296 = 2^(p+1) := by
            rw [← Nat.pow_succ]
            refine Nat.mod_eq_of_lt ?_
            calc (2:Nat)^(p+1) < 2^32 := Nat.pow_lt_pow_right (by omega) (by omega)
            _ = 4294967296 := by norm_num
          have hmidne : (2:Nat)^(p+1) ≠ 0 := by
            have := Nat.two_pow_pos (p+1)
            omega
          by_cases hs0 : s = 0
          · subst hs0
            have hst4 : packElem ls st (.str off len) =
                ⟨st.out ++ [0], st.nextOff + 4, st.nextBits, st.bits + 2^p, 2^(p+1),
                 st.out.length, tokenOf ls (off, len), 1,
                 st.nextBytes, st.bytes, st.byteCount⟩ := by
              simp [packElem, reserveBits, emitFlag1, reserveStrings, addString, hm, hmne,
                hsc, tokenOf, shiftLeft_mul, hor, hmid, hmidne]
            rw [hst4, ih _ (p+1) 1 b ?hconM1 htok2 hlit2]
            case hconM1 =>
              unfold EncCon
              refine ⟨by omega, by omega, hb,
                by show (2:Nat)^(p+1) = if p+1 = 0 then 0 else 2^(p+1)
                   rw [if_neg (by omega)],
                fun h => by
                  show st.bits + 2^p < 2^(p+1)
                  have he : (2:Nat)^(p+1) = 2^p * 2 := Nat.pow_succ ..
                  omega,
                rfl,
                fun h => tokenOf_lt (by omega) htokhd, hbc, hbytes,
                fun h => by
                  show st.nextBits < (st.out ++ [0]).length
                  simp
                  omega,
                fun h => by
                  show st.out.length < (st.out ++ [0]).length
                  simp,
                fun h => by
                  show st.nextBytes < (st.out ++ [0]).length
                  have := hnB h
                  simp
                  omega,
                fun h1 h2 => by
                  show st.nextBits ≠ st.out.length
                  omega,
                fun h1 h2 => hd2 hp0 h2,
                fun h1 h2 => by
                  show st.out.length ≠ st.nextBytes
                  have := hnB h2
                  omega⟩
            have h32p : 32 - p = (31 - p) + 1 := by omega
            have h31p : 32 - (p + 1) = 31 - p := by omega
            have hm32 : (p + 1) % 32 = p + 1 := Nat.mod_eq_of_lt (by omega)
            have harith : st.bits + 2^p * (1 + 2 * flagBits (31 - p) es) =
                st.bits + 2^p + 2^(p+1) * flagBits (31 - p) es := by
              rw [Nat.pow_succ]
              ring
            by_cases hb0 : b = 0
            · subst hb0
              simp [completeOut, futureWords, litsOf, strsOf, if_neg hp0,
                flagWordOf, strWordOf, tokenHead, flagBits, List.append_assoc,
                setAt_append_left _ hnBi, hm32, h31p, h32p, harith]
              have hAl : st.out.length = (setAt st.out st.nextBits
                  (st.bits + 2^p + 2^(p+1) * flagBits (31 - p) es)).length :=
                (setAt_length _ _ _).symm
              rw [hAl, setAt_snoc]
              simp [List.append_assoc]
            · have hnY := hnB hb0
              simp [completeOut, futureWords, litsOf, strsOf, if_neg hp0, if_neg hb0,
                flagWordOf, strWordOf, tokenHead, flagBits, List.append_assoc,
                setAt_append_left _ hnBi, hm32, h31p, h32p, harith]
              rw [setAt_append_left _ (by rw [setAt_length]; exact hnY)]
              have hAl : st.out.length =
                  (setAt (setAt st.out st.nextBits
                    (st.bits + 2^p + 2^(p+1) * flagBits (31 - p) es))
                  st.nextBytes (st.bytes + 2 ^ (8 * b) * byteBits (4 - b) (litsOf es))).length := by
                rw [setAt_length, setAt_length]
              rw [hAl, setAt_snoc]
              simp [List.append_assoc]
          · have hs1 : s = 1 := by omega
            subst hs1
            have hnS : st.nextStrings < st.out.length := hns (by omega)
            have hstrv : st.strings < 2^16 := hstr (by omega)
            have hsc1 : st.stringCount = 1 := hsc
            have hst4 : packElem ls st (.str off len) =
                ⟨setAt st.out st.nextStrings (st.strings + tokenOf ls (off, len) * 65536),
                 st.nextOff, st.nextBits, st.bits + 2^p, 2^(p+1),
                 st.nextStrings, st.strings + tokenOf ls (off, len) * 65536, 0,
                 st.nextBytes, st.bytes, st.byteCount⟩ := by
              simp [packElem, reserveBits, emitFlag1, reserveStrings, addString, hm, hmne,
                hsc1, tokenOf, shiftLeft_mul, hor, hmid, hmidne]
            rw [hst4, ih _ (p+1) 0 b ?hconM2 htok2 hlit2]
            case hconM2 =>
              unfold EncCon
              refine ⟨by omega, by omega, hb,
                by show (2:Nat)^(p+1) = if p+1 = 0 then 0 else 2^(p+1)
                   rw [if_neg (by omega)],
                fun h => by
                  show st.bits + 2^p < 2^(p+1)
                  have he : (2:Nat)^(p+1) = 2^p * 2 := Nat.pow_succ ..
                  omega,
                rfl,
                fun h => absurd rfl h, hbc, hbytes,
                fun h => by
                  show st.nextBits < (setAt st.out st.nextStrings
                    (st.strings + tokenOf ls (off, len) * 65536)).length
                  rw [setAt_length]
                  exact hnBi,
                fun h => absurd rfl h,
                fun h => by
                  show st.nextBytes < (setAt st.out st.nextStrings
                    (st.strings + tokenOf ls (off, len) * 65536)).length
                  rw [setAt_length]
                  exact hnB h,
                fun h1 h2 => absurd rfl h2,
                fun h1 h2 => hd2 hp0 h2,
                fun h1 h2 => absurd rfl h1⟩
            have h32p : 32 - p = (31 - p) + 1 := by omega
            have h31p : 32 - (p + 1) = 31 - p := by omega
            have hm32 : (p + 1) % 32 = p + 1 := Nat.mod_eq_of_lt (by omega)
            have harith : st.bits + 2^p * (1 + 2 * flagBits (31 - p) es) =
                st.bits + 2^p + 2^(p+1) * flagBits (31 - p) es := by
              rw [Nat.pow_succ]
              ring
            have hneSB : st.nextStrings ≠ st.nextBits := Ne.symm (hd1 hp0 (by omega))
            by_cases hb0 : b = 0
            · subst hb0
              simp [completeOut, futureWords, litsOf, strsOf, if_neg hp0,
                flagWordOf, strWordOf, tokenHead, flagBits, List.append_assoc,
                hm32, h31p, h32p, harith]
              rw [Nat.mul_comm 65536 (tokenOf ls (off, len)), setAt_comm hneSB]
            · have hnY := hnB hb0
              have hne : st.nextStrings ≠ st.nextBytes := hd3 (by omega) hb0
              simp [completeOut, futureWords, litsOf, strsOf, if_neg hp0, if_neg hb0,
                flagWordOf, strWordOf, tokenHead, flagBits, List.append_assoc,
                hm32, h31p, h32p, harith]
              rw [Nat.mul_comm 65536 (tokenOf ls (off, len)), setAt_comm hneSB,
                setAt_comm hne]
    | lit v =>
      have hlithd : v < 256 := hlit _ (by simp [litsOf])
      have htok2 : ∀ t ∈ strsOf es, tokOK ls t := by simpa [strsOf] using htok
      have hlit2 : ∀ w ∈ litsOf es, w < 256 := fun w hw => hlit w (by simp [litsOf, hw])
      rw [show packList ls st (.lit v :: es) =
        packList ls (packElem ls st (.lit v)) es from rfl]
      by_cases hp0 : p = 0
      · subst hp0
        have hm : st.bitMask = 0 := by rw [hmask]; rfl
        have hbcb : st.byteCount = b := hbc
        by_cases hb0 : b = 0
        · subst hb0
          have hst4 : packElem ls st (.lit v) =
              ⟨(st.out ++ [0]) ++ [0], st.nextOff + 4 + 4, st.out.length, 0, 2,
               st.nextStrings, st.strings, st.stringCount,
               st.out.length + 1, v, 1⟩ := by
            simp [packElem, reserveBits, emitFlag0, reserveBytes, addByte, hm, hbcb,
              Nat.shiftLeft_zero]
          rw [hst4, ih _ 1 s 1 ?hconL1 htok2 hlit2]
          case hconL1 =>
            unfold EncCon
            refine ⟨by omega, hs, by omega, by norm_num, by norm_num, hsc, hstr, rfl,
              fun h => by
                show v < 2^(8*1)
                simpa using hlithd,
              fun h => by
                show st.out.length < (st.out ++ [0] ++ [0]).length
                simp,
              fun h => by
                show st.nextStrings < (st.out ++ [0] ++ [0]).length
                have := hns h
                simp
                omega,
              fun h => by
                show st.out.length + 1 < (st.out ++ [0] ++ [0]).length
                simp,
              fun h1 h2 => by
                show st.out.length ≠ st.nextStrings
                have := hns h2
                omega,
              fun h1 h2 => by
                show st.out.length ≠ st.out.length + 1
                omega,
              fun h1 h2 => by
                show st.nextStrings ≠ st.out.length + 1
                have := hns h1
                omega⟩
          by_cases hs0 : s = 0
          · subst hs0
            simp [completeOut, futureWords, litsOf, strsOf, setAt_pair0, setAt_pair1,
              flagWordOf, byteWordOf, byteBits, flagBits, List.append_assoc]
          · have hnS := hns hs0
            simp [completeOut, futureWords, litsOf, strsOf, if_neg hs0, setAt_pair0,
              flagWordOf, byteWordOf, byteBits, flagBits, List.append_assoc]
            rw [setAt_pair1, setAt_append_left _ hnS]
            simp [List.append_assoc]
        · have hnY := hnB hb0
          by_cases hb3 : b = 3
          · subst hb3
            have hbytesv : st.bytes < 2^(8*3) := hbytes (by omega)
            have hst4 : packElem ls st (.lit v) =
                ⟨setAt st.out st.nextBytes (st.bytes + 16777216 * v) ++ [0],
                 st.nextOff + 4, st.out.length, 0, 2,
                 st.nextStrings, st.strings, st.stringCount,
                 st.nextBytes, st.bytes + 16777216 * v, 0⟩ := by
              simp [packElem, reserveBits, emitFlag0, reserveBytes, addByte, hm, hbcb,
                shiftLeft_mul, setAt_append_left _ hnY, Nat.mul_comm v 16777216]
            rw [hst4, ih _ 1 s 0 ?hconL3 htok2 hlit2]
            case hconL3 =>
              unfold EncCon
              refine ⟨by omega, hs, by omega, by norm_num, by norm_num, hsc, hstr, rfl,
                fun h => absurd rfl h,
                fun h => by
                  show st.out.length <
                    (setAt st.out st.nextBytes (st.bytes + 16777216 * v) ++ [0]).length
                  simp [setAt_length],
                fun h => by
                  show st.nextStrings <
                    (setAt st.out st.nextBytes (st.bytes + 16777216 * v) ++ [0]).length
                  have := hns h
                  simp [setAt_length]
                  omega,
                fun h => absurd rfl h,
                fun h1 h2 => by
                  show st.out.length ≠ st.nextStrings
                  have := hns h2
                  omega,
                fun h1 h2 => absurd rfl h2,
                fun h1 h2 => absurd rfl h2⟩
            by_cases hs0 : s = 0
            · subst hs0
              simp [completeOut, futureWords, litsOf, strsOf, flagWordOf, byteBits,
                flagBits, List.append_assoc]
              have hAl : st.out.length =
                  (setAt st.out st.nextBytes (st.bytes + 16777216 * v)).length :=
                (setAt_length _ _ _).symm
              rw [hAl, setAt_snoc]
              simp [List.append_assoc]
            · have hnS := hns hs0
              simp [completeOut, futureWords, litsOf, strsOf, if_neg hs0, flagWordOf,
                byteBits, flagBits, List.append_assoc]
              have hAl : st.out.length =
                  (setAt st.out st.nextBytes (st.bytes + 16777216 * v)).length :=
                (setAt_length _ _ _).symm
              rw [hAl, setAt_snoc,
                setAt_append_left _ (by rw [setAt_length]; exact hnS)]
              simp [List.append_assoc]
          · have hb4 : ¬ (st.byteCount + 1 = 4) := by omega
            have hbne0 : ¬ st.byteCount = 0 := by omega
            have hbytesv : st.bytes < 2^(8*b) := hbytes hb0
            have hst4 : packElem ls st (.lit v) =
                ⟨st.out ++ [0], st.nextOff + 4, st.out.length, 0, 2,
                 st.nextStrings, st.strings, st.stringCount,
                 st.nextBytes, st.bytes + v * 2^(b*8), b+1⟩ := by
              simp [packElem, reserveBits, emitFlag0, reserveBytes, addByte, hm, hbcb,
                hb4, hbne0, hb0, hb3, shiftLeft_mul]
            rw [hst4, ih _ 1 s (b+1) ?hconL4 htok2 hlit2]
            case hconL4 =>
              unfold EncCon
              refine ⟨by omega, hs, by omega, by norm_num, by norm_num, hsc, hstr, rfl,
                fun h => by
                  show st.bytes + v * 2^(b*8) < 2^(8*(b+1))
                  have hBpow : (2:Nat)^(8*(b+1)) = 2^(8*b) * 256 := by
                    rw [show 8*(b+1) = 8*b + 8 by ring, Nat.pow_add]
                  have h2 : v * 2^(b*8) ≤ 255 * 2^(b*8) :=
                    Nat.mul_le_mul_right _ (by omega)
                  rw [show b*8 = 8*b by ring] at h2 ⊢
                  omega,
                fun h => by
                  show st.out.length < (st.out ++ [0]).length
                  simp,
                fun h => by
                  show st.nextStrings < (st.out ++ [0]).length
                  have := hns h
                  simp
                  omega,
                fun h => by
                  show st.nextBytes < (st.out ++ [0]).length
                  simp
                  omega,
                fun h1 h2 => by
                  show st.out.length ≠ st.nextStrings
                  have := hns h2
                  omega,
                fun h1 h2 => by
                  show st.out.length ≠ st.nextBytes
                  omega,
                fun h1 h2 => hd3 h1 hb0⟩
            have hb4m : (b + 1) % 4 = b + 1 := Nat.mod_eq_of_lt (by omega)
            have h4b : 4 - b = (3 - b) + 1 := by omega
            have h3b : 4 - (b + 1) = 3 - b := by omega
            have hBpow : (2:Nat)^(8*(b+1)) = 2^(8*b) * 256 := by
              rw [show 8*(b+1) = 8*b + 8 by ring, Nat.pow_add]
            have harithB : st.bytes + 2^(8*b) * (v + 256 * byteBits (3 - b) (litsOf es)) =
                st.bytes + v * 2^(b*8) + 2^(8*(b+1)) * byteBits (3 - b) (litsOf es) := by
              rw [show b*8 = 8*b by ring, hBpow]
              ring
            by_cases hs0 : s = 0
            · subst hs0
              simp [completeOut, futureWords, litsOf, strsOf, flagWordOf, byteBits,
                flagBits, List.append_assoc, hb4m, h4b, h3b, harithB, hb0,
                setAt_append_left _ hnY, setAt_snoc]
            · have hnS := hns hs0
              simp [completeOut, futureWords, litsOf, strsOf, if_neg hs0, flagWordOf,
                byteBits, flagBits, List.append_assoc, hb4m, h4b, h3b, harithB, hb0,
                setAt_append_left _ hnY, setAt_snoc]
              rw [setAt_append_left _ (by rw [setAt_length]; exact hnS)]
              simp [List.append_assoc]
      · have hm : st.bitMask = 2^p := by rw [hmask, if_neg hp0]
        have hbitsv : st.bits < 2^p := hbits hp0
        have hnBi : st.nextBits < st.out.length := hnb hp0
        have hmne : ¬ st.bitMask = 0 := by
          rw [hm]
          have := Nat.two_pow_pos p
          omega
        have hbcb : st.byteCount = b := hbc
        by_cases hp31 : p = 31
        · subst hp31
          have hwrapL : (2147483648:Nat) <<< 1 % 4294967296 = 0 := by decide
          by_cases hb0 : b = 0
          · subst hb0
            have hst4 : packElem ls st (.lit v) =
                ⟨setAt st.out st.nextBits st.bits ++ [0], st.nextOff + 4,
                 st.nextBits, st.bits, 0, st.nextStrings, st.strings, st.stringCount,
                 st.out.length, v, 1⟩ := by
              simp [packElem, reserveBits, emitFlag0, reserveBytes, addByte, hm, hmne,
                hbcb, hwrapL, Nat.shiftLeft_zero, setAt_length]
            rw [hst4, ih _ 0 s 1 ?hconL5 htok2 hlit2]
            case hconL5 =>
              unfold EncCon
              refine ⟨by omega, hs, by omega, rfl, fun h => absurd rfl h, hsc, hstr, rfl,
                fun h => by
                  show v < 2^(8*1)
                  simpa using hlithd,
                fun h => absurd rfl h,
                fun h => by
                  show st.nextStrings < (setAt st.out st.nextBits st.bits ++ [0]).length
                  have := hns h
                  simp [setAt_length]
                  omega,
                fun h => by
                  show st.out.length < (setAt st.out st.nextBits st.bits ++ [0]).length
                  simp [setAt_length],
                fun h1 h2 => absurd rfl h1,
                fun h1 h2 => absurd rfl h1,
                fun h1 h2 => by
                  show st.nextStrings ≠ st.out.length
                  have := hns h1
                  omega⟩
            by_cases hs0 : s = 0
            · subst hs0
              simp [completeOut, futureWords, litsOf, strsOf, flagWordOf, byteWordOf,
                byteBits, flagBits, List.append_assoc]
              have hAl : st.out.length = (setAt st.out st.nextBits st.bits).length :=
                (setAt_length _ _ _).symm
              rw [hAl, setAt_snoc]
              simp [List.append_assoc]
            · have hnS := hns hs0
              simp [completeOut, futureWords, litsOf, strsOf, if_neg hs0, flagWordOf,
                byteWordOf, byteBits, flagBits, List.append_assoc]
              have hAl : st.out.length = (setAt st.out st.nextBits st.bits).length :=
                (setAt_length _ _ _).symm
              rw [hAl, setAt_snoc,
                setAt_append_left _ (by rw [setAt_length]; exact hnS)]
              simp [List.append_assoc]
          · have hnY := hnB hb0
            have hbytesv : st.bytes < 2^(8*b) := hbytes hb0
            have hneBB : st.nextBits ≠ st.nextBytes := hd2 hp0 hb0
            by_cases hb3 : b = 3
            · subst hb3
              have hst4 : packElem ls st (.lit v) =
                  ⟨setAt (setAt st.out st.nextBits st.bits) st.nextBytes
                     (st.bytes + 16777216 * v),
                   st.nextOff, st.nextBits, st.bits, 0,
                   st.nextStrings, st.strings, st.stringCount,
                   st.nextBytes, st.bytes + 16777216 * v, 0⟩ := by
                simp [packElem, reserveBits, emitFlag0, reserveBytes, addByte, hm, hmne,
                  hbcb, hwrapL, shiftLeft_mul, Nat.mul_comm v 16777216]
              rw [hst4, ih _ 0 s 0 ?hconL6 htok2 hlit2]
              case hconL6 =>
                unfold EncCon
                refine ⟨by omega, hs, by omega, rfl, fun h => absurd rfl h, hsc, hstr, rfl,
                  fun h => absurd rfl h,
                  fun h => absurd rfl h,
                  fun h => by
                    show st.nextStrings < (setAt (setAt st.out st.nextBits st.bits)
                      st.nextBytes (st.bytes + 16777216 * v)).length
                    rw [setAt_length, setAt_length]
                    exact hns h,
                  fun h => absurd rfl h,
                  fun h1 h2 => absurd rfl h1,
                  fun h1 h2 => absurd rfl h1,
                  fun h1 h2 => absurd rfl h2⟩
              by_cases hs0 : s = 0
              · subst hs0
                simp [completeOut, futureWords, litsOf, strsOf, flagWordOf, byteBits,
                  flagBits, List.append_assoc]
              · have hnS := hns hs0
                simp [completeOut, futureWords, litsOf, strsOf, if_neg hs0, flagWordOf,
                  byteBits, flagBits, List.append_assoc]
            · have hb4 : ¬ (st.byteCount + 1 = 4) := by omega
              have hst4 : packElem ls st (.lit v) =
                  ⟨setAt st.out st.nextBits st.bits, st.nextOff, st.nextBits, st.bits, 0,
                   st.nextStrings, st.strings, st.stringCount,
                   st.nextBytes, st.bytes + v * 2^(b*8), b+1⟩ := by
                simp [packElem, reserveBits, emitFlag0, reserveBytes, addByte, hm, hmne,
                  hbcb, hb4, hb0, hb3, hwrapL, shiftLeft_mul]
              rw [hst4, ih _ 0 s (b+1) ?hconL7 htok2 hlit2]
              case hconL7 =>
                unfold EncCon
                refine ⟨by omega, hs, by omega, rfl, fun h => absurd rfl h, hsc, hstr, rfl,
                  fun h => by
                    show st.bytes + v * 2^(b*8) < 2^(8*(b+1))
                    have hBpow : (2:Nat)^(8*(b+1)) = 2^(8*b) * 256 := by
                      rw [show 8*(b+1) = 8*b + 8 by ring, Nat.pow_add]
                    have h2 : v * 2^(b*8) ≤ 255 * 2^(b*8) :=
                      Nat.mul_le_mul_right _ (by omega)
                    rw [show b*8 = 8*b by ring] at h2 ⊢
                    omega,
                  fun h => absurd rfl h,
                  fun h => by
                    show st.nextStrings < (setAt st.out st.nextBits st.bits).length
                    rw [setAt_length]
                    exact hns h,
                  fun h => by
                    show st.nextBytes < (setAt st.out st.nextBits st.bits).length
                    rw [setAt_length]
                    exact hnY,
                  fun h1 h2 => absurd rfl h1,
                  fun h1 h2 => absurd rfl h1,
                  fun h1 h2 => hd3 h1 hb0⟩
              have hb4m : (b + 1) % 4 = b + 1 := Nat.mod_eq_of_lt (by omega)
              have h4b : 4 - b = (3 - b) + 1 := by omega
              have h3b : 4 - (b + 1) = 3 - b := by omega
              have hBpow : (2:Nat)^(8*(b+1)) = 2^(8*b) * 256 := by
                rw [show 8*(b+1) = 8*b + 8 by ring, Nat.pow_add]
              have harithB : st.bytes + 2^(8*b) * (v + 256 * byteBits (3 - b) (litsOf es)) =
                  st.bytes + v * 2^(b*8) + 2^(8*(b+1)) * byteBits (3 - b) (litsOf es) := by
                rw [show b*8 = 8*b by ring, hBpow]
                ring
              by_cases hs0 : s = 0
              · subst hs0
                simp [completeOut, futureWords, litsOf, strsOf, flagWordOf, byteBits,
                  flagBits, List.append_assoc, hb4m, h4b, h3b, harithB, hb0]
              · have hnS := hns hs0
                simp [completeOut, futureWords, litsOf, strsOf, if_neg hs0, flagWordOf,
                  byteBits, flagBits, List.append_assoc, hb4m, h4b, h3b, harithB, hb0]
        · have hmid : (2:Nat)^p * 2 % 4294967296 = 2^(p+1) := by
            rw [← Nat.pow_succ]
            refine Nat.mod_eq_of_lt ?_
            calc (2:Nat)^(p+1) < 2^32 := Nat.pow_lt_pow_right (by omega) (by omega)
            _ = 4294967296 := by norm_num
          have hmidne : (2:Nat)^(p+1) ≠ 0 := by
            have := Nat.two_pow_pos (p+1)
            omega
          have h32p : 32 - p = (31 - p) + 1 := by omega
          have h31p : 32 - (p + 1) = 31 - p := by omega
          have hm32 : (p + 1) % 32 = p + 1 := Nat.mod_eq_of_lt (by omega)
          have harithF : st.bits + 2^p * (2 * flagBits (31 - p) es) =
              st.bits + 2^(p+1) * flagBits (31 - p) es := by
            rw [Nat.pow_succ]
            ring
          by_cases hb0 : b = 0
          · subst hb0
            have hst4 : packElem ls st (.lit v) =
                ⟨st.out ++ [0], st.nextOff + 4, st.nextBits, st.bits, 2^(p+1),
                 st.nextStrings, st.strings, st.stringCount,
                 st.out.length, v, 1⟩ := by
              simp [packElem, reserveBits, emitFlag0, reserveBytes, addByte, hm, hmne,
                hbcb, hmid, hmidne, shiftLeft_mul, Nat.shiftLeft_zero]
            rw [hst4, ih _ (p+1) s 1 ?hconL8 htok2 hlit2]
            case hconL8 =>
              unfold EncCon
              refine ⟨by omega, hs, by omega,
                by show (2:Nat)^(p+1) = if p+1 = 0 then 0 else 2^(p+1)
                   rw [if_neg (by omega)],
                fun h => by
                  show st.bits < 2^(p+1)
                  have he : (2:Nat)^(p+1) = 2^p * 2 := Nat.pow_succ ..
                  omega,
                hsc, hstr, rfl,
                fun h => by
                  show v < 2^(8*1)
                  simpa using hlithd,
                fun h => by
                  show st.nextBits < (st.out ++ [0]).length
                  simp
                  omega,
                fun h => by
                  show st.nextStrings < (st.out ++ [0]).length
                  have := hns h
                  simp
                  omega,
                fun h => by
                  show st.out.length < (st.out ++ [0]).length
                  simp,
                fun h1 h2 => hd1 hp0 h2,
                fun h1 h2 => by
                  show st.nextBits ≠ st.out.length
                  omega,
                fun h1 h2 => by
                  show st.nextStrings ≠ st.out.length
                  have := hns h1
                  omega⟩
            by_cases hs0 : s = 0
            · subst hs0
              simp [completeOut, futureWords, litsOf, strsOf, if_neg hp0, flagWordOf,
                byteWordOf, byteBits, flagBits, List.append_assoc,
                setAt_append_left _ hnBi, hm32, h31p, h32p, harithF]
              have hAl : st.out.length = (setAt st.out st.nextBits
                  (st.bits + 2^(p+1) * flagBits (31 - p) es)).length :=
                (setAt_length _ _ _).symm
              rw [hAl, setAt_snoc]
              simp [List.append_assoc]
            · have hnS := hns hs0
              simp [completeOut, futureWords, litsOf, strsOf, if_neg hp0, if_neg hs0,
                flagWordOf, byteWordOf, byteBits, flagBits, List.append_assoc,
                setAt_append_left _ hnBi, hm32, h31p, h32p, harithF]
              have hAl : st.out.length = (setAt st.out st.nextBits
                  (st.bits + 2^(p+1) * flagBits (31 - p) es)).length :=
                (setAt_length _ _ _).symm
              rw [hAl, setAt_snoc,
                setAt_append_left _ (by rw [setAt_length]; exact hnS)]
              simp [List.append_assoc]
          · have hnY := hnB hb0
            have hbytesv : st.bytes < 2^(8*b) := hbytes hb0
            have hneBtB : st.nextBytes ≠ st.nextBits := Ne.symm (hd2 hp0 hb0)
            by_cases hb3 : b = 3
            · subst hb3
              have hst4 : packElem ls st (.lit v) =
                  ⟨setAt st.out st.nextBytes (st.bytes + 16777216 * v),
                   st.nextOff, st.nextBits, st.bits, 2^(p+1),
                   st.nextStrings, st.strings, st.stringCount,
                   st.nextBytes, st.bytes + 16777216 * v, 0⟩ := by
                simp [packElem, reserveBits, emitFlag0, reserveBytes, addByte, hm, hmne,
                  hbcb, hmid, hmidne, shiftLeft_mul, Nat.mul_comm v 16777216]
              rw [hst4, ih _ (p+1) s 0 ?hconL9 htok2 hlit2]
              case hconL9 =>
                unfold EncCon
                refine ⟨by omega, hs, by omega,
                  by show (2:Nat)^(p+1) = if p+1 = 0 then 0 else 2^(p+1)
                     rw [if_neg (by omega)],
                  fun h => by
                    show st.bits < 2^(p+1)
                    have he : (2:Nat)^(p+1) = 2^p * 2 := Nat.pow_succ ..
                    omega,
                  hsc, hstr, rfl,
                  fun h => absurd rfl h,
                  fun h => by
                    show st.nextBits < (setAt st.out st.nextBytes
                      (st.bytes + 16777216 * v)).length
                    rw [setAt_length]
                    exact hnBi,
                  fun h => by
                    show st.nextStrings < (setAt st.out st.nextBytes
                      (st.bytes + 16777216 * v)).length
                    rw [setAt_length]
                    exact hns h,
                  fun h => absurd rfl h,
                  fun h1 h2 => hd1 hp0 h2,
                  fun h1 h2 => absurd rfl h2,
                  fun h1 h2 => absurd rfl h2⟩
              by_cases hs0 : s = 0
              · subst hs0
                simp [completeOut, futureWords, litsOf, strsOf, if_neg hp0, flagWordOf,
                  byteBits, flagBits, List.append_assoc, hm32, h31p, h32p, harithF]
                rw [setAt_comm hneBtB]
              · have hnS := hns hs0
                simp [completeOut, futureWords, litsOf, strsOf, if_neg hp0, if_neg hs0,
                  flagWordOf, byteBits, flagBits, List.append_assoc, hm32, h31p, h32p,
                  harithF]
                rw [setAt_comm hneBtB]
            · have hb4 : ¬ (st.byteCount + 1 = 4) := by omega
              have hst4 : packElem ls st (.lit v) =
                  ⟨st.out, st.nextOff, st.nextBits, st.bits, 2^(p+1),
                   st.nextStrings, st.strings, st.stringCount,
                   st.nextBytes, st.bytes + v * 2^(b*8), b+1⟩ := by
                simp [packElem, reserveBits, emitFlag0, reserveBytes, addByte, hm, hmne,
                  hbcb, hb4, hb0, hb3, hmid, hmidne, shiftLeft_mul]
              rw [hst4, ih _ (p+1) s (b+1) ?hconL10 htok2 hlit2]
              case hconL10 =>
                unfold EncCon
                refine ⟨by omega, hs, by omega,
                  by show (2:Nat)^(p+1) = if p+1 = 0 then 0 else 2^(p+1)
                     rw [if_neg (by omega)],
                  fun h => by
                    show st.bits < 2^(p+1)
                    have he : (2:Nat)^(p+1) = 2^p * 2 := Nat.pow_succ ..
                    omega,
                  hsc, hstr, rfl,
                  fun h => by
                    show st.bytes + v * 2^(b*8) < 2^(8*(b+1))
                    have hBpow : (2:Nat)^(8*(b+1)) = 2^(8*b) * 256 := by
                      rw [show 8*(b+1) = 8*b + 8 by ring, Nat.pow_add]
                    have h2 : v * 2^(b*8) ≤ 255 * 2^(b*8) :=
                      Nat.mul_le_mul_right _ (by omega)
                    rw [show b*8 = 8*b by ring] at h2 ⊢
                    omega,
                  fun h => hnBi,
                  fun h => hns h,
                  fun h => hnY,
                  fun h1 h2 => hd1 hp0 h2,
                  fun h1 h2 => hd2 hp0 hb0,
                  fun h1 h2 => hd3 h1 hb0⟩
              have hb4m : (b + 1) % 4 = b + 1 := Nat.mod_eq_of_lt (by omega)
              have h4b : 4 - b = (3 - b) + 1 := by omega
              have h3b : 4 - (b + 1) = 3 - b := by omega
              have hBpow : (2:Nat)^(8*(b+1)) = 2^(8*b) * 256 := by
                rw [show 8*(b+1) = 8*b + 8 by ring, Nat.pow_add]
              have harithB : st.bytes + 2^(8*b) * (v + 256 * byteBits (3 - b) (litsOf es)) =
                  st.bytes + v * 2^(b*8) + 2^(8*(b+1)) * byteBits (3 - b) (litsOf es) := by
                rw [show b*8 = 8*b by ring, hBpow]
                ring
              by_cases hs0 : s = 0
              · subst hs0
                simp [completeOut, futureWords, litsOf, strsOf, if_neg hp0, flagWordOf,
                  byteBits, flagBits, List.append_assoc, hb4m, h4b, h3b, harithB, hb0,
                  hm32, h31p, h32p, harithF]
              · have hnS := hns hs0
                simp [completeOut, futureWords, litsOf, strsOf, if_neg hp0, if_neg hs0,
                  flagWordOf, byteBits, flagBits, List.append_assoc, hb4m, h4b, h3b,
                  harithB, hb0, hm32, h31p, h32p, harithF]

end LZSS
namespace LZSS

/-- Reading the head of a dropped suffix. -/
theorem drop_cons {ws : List Nat} {c w : Nat} {l : List Nat}
    (h : ws.drop c = w :: l) :
    ws.getD c 0 = w ∧ ws.drop (c+1) = l ∧ c < ws.length := by
  have hlt : c < ws.length := by
    by_contra hge
    rw [List.drop_eq_nil_of_le (by omega)] at h
    exact List.noConfusion h
  rw [List.drop_eq_getElem_cons hlt] at h
  have h1 := List.head_eq_of_cons_eq h
  have h2 := List.tail_eq_of_cons_eq h
  exact ⟨by rw [List.getD_eq_getElem ws 0 hlt]; exact h1, h2, hlt⟩

theorem flagBits_succ_str (n off len : Nat) (es : List Elem) :
    flagBits (n+1) (.str off len :: es) = 1 + 2 * flagBits n es := rfl

theorem flagBits_succ_lit (n v : Nat) (es : List Elem) :
    flagBits (n+1) (.lit v :: es) = 2 * flagBits n es := by
  rw [flagBits, Nat.zero_add]

/-- Flag-bit test on a partially consumed flag word. -/
theorem flagtest {a : Nat} (p m : Nat) (h : a < 2^p) :
    (a + 2^p * m) &&& 2^p = if m % 2 = 1 then 2^p else 0 := by
  rw [and_two_pow_eq, Nat.add_mul_div_left _ _ (Nat.two_pow_pos p),
    Nat.div_eq_of_lt h, Nat.zero_add]

theorem byte_and_255 {v : Nat} (m : Nat) (h : v < 256) :
    (v + 256 * m) &&& 255 = v := by
  have h255 : (255:Nat) = 2^8 - 1 := by norm_num
  have h256 : (256:Nat) = 2^8 := by norm_num
  rw [h255, and_mask_eq_mod, h256, Nat.add_mul_mod_self_left, Nat.mod_eq_of_lt]
  omega

theorem byte_shift8 (v m : Nat) (h : v < 256) : (v + 256 * m) >>> 8 = m := by
  have h256 : (256:Nat) = 2^8 := by norm_num
  rw [shiftRight_div, h256, Nat.add_mul_div_left _ _ (Nat.two_pow_pos 8),
    Nat.div_eq_of_lt (by omega), Nat.zero_add]

/-- The decoder loop, run on the reserved words of an element list from a
consistent mid-stream state, reconstructs exactly the replay of that list. -/
theorem decodeSim (ls : Nat) (hls1 : 1 ≤ ls) (hls : ls ≤ 14) (ws : List Nat) :
    ∀ es (st : DecState) p s b final fuel,
      ws.drop st.cur = futureWords ls es p s b →
      p < 32 → s < 2 → b < 4 →
      st.bitMask = (if p = 0 then 0 else 2^p) →
      (p ≠ 0 → ∃ a, a < 2^p ∧ st.bits = a + 2^p * flagBits (32-p) es) →
      st.stringCount = s →
      (s ≠ 0 → st.strings = tokenHead ls (strsOf es)) →
      st.byteCount = (if b = 0 then 0 else 4 - b) →
      (b ≠ 0 → st.bytes = byteBits (4-b) (litsOf es)) →
      st.remaining = esSize es →
      (∀ t ∈ strsOf es, tokOK ls t) →
      (∀ v ∈ litsOf es, v < 256) →
      replayList st.buffer es = some final →
      es.length ≤ fuel →
      ∃ st', decompressLoop ws (2^ls - 1) ls (2^(16-ls) - 1) st fuel = some st' ∧
        st'.buffer = final := by
  intro es
  induction es with
  | nil =>
    intro st p s b final fuel hdrop hp hs hb hmask hbits hsc hstr hbc hbytes hrem
      htok hlit hrep hfuel
    have hfin : st.buffer = final := by
      rw [replayList] at hrep
      exact Option.some.inj hrep
    refine ⟨st, ?_, hfin⟩
    cases fuel with
    | zero => rfl
    | succ f =>
      have h0 : st.remaining = 0 := by rw [hrem]; rfl
      simp [decompressLoop, h0]
  | cons e es ih =>
    intro st p s b final fuel hdrop hp hs hb hmask hbits hsc hstr hbc hbytes hrem
      htok hlit hrep hfuel
    obtain ⟨f, rfl⟩ : ∃ f, fuel = f + 1 := by
      cases fuel with
      | zero => simp at hfuel
      | succ f => exact ⟨f, rfl⟩
    have hfuel2 : es.length ≤ f := by
      simp at hfuel
      omega
    cases e with
    | str off len =>
      have thd : tokOK ls (off, len) := htok _ (by simp [strsOf])
      have htok2 : ∀ t ∈ strsOf es, tokOK ls t := fun t ht => htok t (by simp [strsOf, ht])
      have hlit2 : ∀ v ∈ litsOf es, v < 256 := by simpa [litsOf] using hlit
      obtain ⟨h3off, hoffls, h3len, hlenls⟩ := thd
      have hrem0 : ¬ st.remaining = 0 := by
        rw [hrem]
        show ¬ (len + esSize es = 0)
        omega
      have hremsub : st.remaining - len = esSize es := by
        rw [hrem]
        show len + esSize es - len = esSize es
        omega
      rw [replayList] at hrep
      have hcnd : off ≤ st.buffer.length ∧ len ≤ off := by
        by_contra hc
        rw [replayElem, if_neg hc] at hrep
        exact Option.noConfusion hrep
      rw [replayElem, if_pos hcnd] at hrep
      have hlenrem : len ≤ st.remaining := by
        rw [hrem]
        show len ≤ len + esSize es
        omega
      obtain ⟨u, hu⟩ : ∃ u, tokenHead ls (strsOf es) = u := ⟨_, rfl⟩
      have hext := token_extract (u := u) (show ls ≤ 16 by omega) h3off hoffls h3len hlenls
      obtain ⟨e1, e2, e3⟩ := hext
      by_cases hp0 : p = 0
      · subst hp0
        have hmask0 : st.bitMask = 0 := by rw [hmask]; rfl
        obtain ⟨k, hk⟩ : ∃ k, flagBits 31 es = k := ⟨_, rfl⟩
        have hF : flagWordOf (.str off len :: es) = 1 + 2 * k := by
          rw [flagWordOf, flagBits_succ_str, hk]
        by_cases hs0 : s = 0
        · subst hs0
          have hsc0 : st.stringCount = 0 := hsc
          have hfw : futureWords ls (.str off len :: es) 0 0 b =
              flagWordOf (.str off len :: es) ::
              strWordOf ls ((off, len) :: strsOf es) :: futureWords ls es 1 1 b := by
            simp [futureWords, strsOf]
          rw [hfw] at hdrop
          obtain ⟨hget1, hdrop1, hlt1⟩ := drop_cons hdrop
          obtain ⟨hget2, hdrop2, hlt2⟩ := drop_cons hdrop1
          have hW2 : strWordOf ls ((off, len) :: strsOf es) =
              tokenOf ls (off, len) + 2^16 * u := by
            rw [strWordOf, hu]
          rw [hW2] at hget2
          have hg1 : (ws[st.cur]?).getD 0 = 1 + 2 * k := by
            rw [← List.getD_eq_getElem?_getD, hget1, hF]
          have h65 : (2:Nat)^16 = 65536 := by norm_num
          have hg2 : (ws[st.cur + 1]?).getD 0 = tokenOf ls (off, len) + 65536 * u := by
            rw [← List.getD_eq_getElem?_getD, ← h65]
            exact hget2
          have hflag2 : (1 + 2 * k) % 2 = 1 := by omega
          have e1x : (tokenOf ls (off, len) + 65536 * u) % 2^ls + 3 = off := by
            rw [← h65, ← and_mask_eq_mod]
            exact e1
          have e2x : (tokenOf ls (off, len) + 65536 * u) >>> ls % 2^(16-ls) + 3 = len := by
            rw [← h65, ← and_mask_eq_mod]
            exact e2
          have e3x : (tokenOf ls (off, len) + 65536 * u) >>> 16 = u := by
            rw [← h65]
            exact e3
          have hmid2 : (tokenOf ls (off, len) + 65536 * u) >>> ls % 2^(16-ls) ≤
              (tokenOf ls (off, len) + 65536 * u) % 2^ls := by
            have h1 := e1x
            have h2 := e2x
            have h3 := hcnd.2
            omega
          have hstep : decompressLoop ws (2^ls - 1) ls (2^(16-ls) - 1) st (f + 1) =
              decompressLoop ws (2^ls - 1) ls (2^(16-ls) - 1)
                ⟨st.cur + 2, 1 + 2 * k, 2, st.bytes, st.byteCount, u, 1,
                 st.buffer ++ (st.buffer.drop (st.buffer.length - off)).take len,
                 esSize es⟩ f := by
            simp [decompressLoop, hrem0, hmask0, hsc0, hg1, hg2, hflag2,
              Nat.not_le.2 hlt1, Nat.not_le.2 hlt2, e1x, e2x, e3x, hmid2, hcnd.1,
              hcnd.2, hlenrem, hremsub]
          rw [hstep]
          exact ih _ 1 1 b final f hdrop2 (by omega) (by omega) hb rfl
            (fun h => ⟨1, by omega, by rw [hk]; norm_num⟩) rfl (fun h => hu.symm) hbc hbytes rfl
            htok2 hlit2 hrep hfuel2
        · have hs1 : s = 1 := by omega
          subst hs1
          have hsc1 : st.stringCount = 1 := hsc
          have hsu : st.strings = tokenOf ls (off, len) := hstr (by omega)
          have hfw : futureWords ls (.str off len :: es) 0 1 b =
              flagWordOf (.str off len :: es) :: futureWords ls es 1 0 b := by
            simp [futureWords, strsOf]
          rw [hfw] at hdrop
          obtain ⟨hget1, hdrop1, hlt1⟩ := drop_cons hdrop
          have hg1 : (ws[st.cur]?).getD 0 = 1 + 2 * k := by
            rw [← List.getD_eq_getElem?_getD, hget1, hF]
          have hflag2 : (1 + 2 * k) % 2 = 1 := by omega
          have hext0 := token_extract (u := 0) (show ls ≤ 16 by omega) h3off hoffls h3len hlenls
          have e1z : tokenOf ls (off, len) % 2^ls + 3 = off := by
            have h1 := hext0.1
            rw [and_mask_eq_mod] at h1
            simpa using h1
          have e2z : tokenOf ls (off, len) >>> ls % 2^(16-ls) + 3 = len := by
            have h2 := hext0.2.1
            rw [and_mask_eq_mod] at h2
            simpa using h2
          have e3z : tokenOf ls (off, len) >>> 16 = 0 := by
            have h3 := hext0.2.2
            simpa using h3
          have hmid2 : tokenOf ls (off, len) >>> ls % 2^(16-ls) ≤
              tokenOf ls (off, len) % 2^ls := by
            have h1 := e1z
            have h2 := e2z
            have h3 := hcnd.2
            omega
          have hstep : decompressLoop ws (2^ls - 1) ls (2^(16-ls) - 1) st (f + 1) =
              decompressLoop ws (2^ls - 1) ls (2^(16-ls) - 1)
                ⟨st.cur + 1, 1 + 2 * k, 2, st.bytes, st.byteCount, 0, 0,
                 st.buffer ++ (st.buffer.drop (st.buffer.length - off)).take len,
                 esSize es⟩ f := by
            simp [decompressLoop, hrem0, hmask0, hsc1, hsu, hg1, hflag2,
              Nat.not_le.2 hlt1, e1z, e2z, e3z, hmid2, hcnd.1, hcnd.2,
              hlenrem, hremsub]
          rw [hstep]
          exact ih _ 1 0 b final f hdrop1 (by omega) (by omega) hb rfl
            (fun h => ⟨1, by omega, by rw [hk]; norm_num⟩) rfl
            (fun h => absurd rfl h) hbc hbytes rfl htok2 hlit2 hrep hfuel2
      · obtain ⟨a, ha, hab⟩ := hbits hp0
        have hmaskp : st.bitMask = 2^p := by rw [hmask, if_neg hp0]
        have hp2ne : (2:Nat)^p ≠ 0 := (Nat.two_pow_pos p).ne'
        have h32p : 32 - p = (31 - p) + 1 := by omega
        obtain ⟨k, hk⟩ : ∃ k, flagBits (31 - p) es = k := ⟨_, rfl⟩
        have hm : flagBits (32 - p) (.str off len :: es) = 1 + 2 * k := by
          rw [h32p, flagBits_succ_str, hk]
        have hfl : st.bits &&& 2^p = 2^p := by
          rw [hab, hm, flagtest p (1 + 2*k) ha, if_pos (by omega)]
        by_cases hp31 : p = 31
        · have hwrapP : (2:Nat)^p * 2 % 4294967296 = 0 := by
            rw [hp31]
            norm_num
          have hm32w : (p + 1) % 32 = 0 := by omega
          by_cases hs0 : s = 0
          · subst hs0
            have hsc0 : st.stringCount = 0 := hsc
            have hfw : futureWords ls (.str off len :: es) p 0 b =
                strWordOf ls ((off, len) :: strsOf es) :: futureWords ls es 0 1 b := by
              simp [futureWords, strsOf, hp0, hm32w]
            rw [hfw] at hdrop
            obtain ⟨hget2, hdrop2, hlt2⟩ := drop_cons hdrop
            have hW2 : strWordOf ls ((off, len) :: strsOf es) =
                tokenOf ls (off, len) + 2^16 * u := by
              rw [strWordOf, hu]
            rw [hW2] at hget2
            have h65 : (2:Nat)^16 = 65536 := by norm_num
            have hg2 : (ws[st.cur]?).getD 0 = tokenOf ls (off, len) + 65536 * u := by
              rw [← List.getD_eq_getElem?_getD, ← h65]
              exact hget2
            have e1x : (tokenOf ls (off, len) + 65536 * u) % 2^ls + 3 = off := by
              rw [← h65, ← and_mask_eq_mod]
              exact e1
            have e2x : (tokenOf ls (off, len) + 65536 * u) >>> ls % 2^(16-ls) + 3 = len := by
              rw [← h65, ← and_mask_eq_mod]
              exact e2
            have e3x : (tokenOf ls (off, len) + 65536 * u) >>> 16 = u := by
              rw [← h65]
              exact e3
            have hmid2 : (tokenOf ls (off, len) + 65536 * u) >>> ls % 2^(16-ls) ≤
                (tokenOf ls (off, len) + 65536 * u) % 2^ls := by
              have h1 := e1x
              have h2 := e2x
              have h3 := hcnd.2
              omega
            have hstep : decompressLoop ws (2^ls - 1) ls (2^(16-ls) - 1) st (f + 1) =
                decompressLoop ws (2^ls - 1) ls (2^(16-ls) - 1)
                  ⟨st.cur + 1, st.bits, 0, st.bytes, st.byteCount, u, 1,
                   st.buffer ++ (st.buffer.drop (st.buffer.length - off)).take len,
                   esSize es⟩ f := by
              simp [decompressLoop, hrem0, hmaskp, hsc0, hfl, hp2ne, hwrapP, hg2,
                shiftLeft_mul, Nat.not_le.2 hlt2, e1x, e2x, e3x, hmid2, hcnd.1,
                hcnd.2, hlenrem, hremsub]
            rw [hstep]
            exact ih _ 0 1 b final f hdrop2 (by omega) (by omega) hb rfl
              (fun h => absurd rfl h) rfl (fun h => hu.symm) hbc hbytes rfl
              htok2 hlit2 hrep hfuel2
          · have hs1 : s = 1 := by omega
            subst hs1
            have hsc1 : st.stringCount = 1 := hsc
            have hsu : st.strings = tokenOf ls (off, len) := hstr (by omega)
            have hfw : futureWords ls (.str off len :: es) p 1 b =
                futureWords ls es 0 0 b := by
              simp [futureWords, hp0, hm32w]
            rw [hfw] at hdrop
            have hext0 := token_extract (u := 0) (show ls ≤ 16 by omega) h3off hoffls
              h3len hlenls
            have e1z : tokenOf ls (off, len) % 2^ls + 3 = off := by
              have h1 := hext0.1
              rw [and_mask_eq_mod] at h1
              simpa using h1
            have e2z : tokenOf ls (off, len) >>> ls % 2^(16-ls) + 3 = len := by
              have h2 := hext0.2.1
              rw [and_mask_eq_mod] at h2
              simpa using h2
            have e3z : tokenOf ls (off, len) >>> 16 = 0 := by
              have h3 := hext0.2.2
              simpa using h3
            have hmid2 : tokenOf ls (off, len) >>> ls % 2^(16-ls) ≤
                tokenOf ls (off, len) % 2^ls := by
              have h1 := e1z
              have h2 := e2z
              have h3 := hcnd.2
              omega
            have hstep : decompressLoop ws (2^ls - 1) ls (2^(16-ls) - 1) st (f + 1) =
                decompressLoop ws (2^ls - 1) ls (2^(16-ls) - 1)
                  ⟨st.cur, st.bits, 0, st.bytes, st.byteCount, 0, 0,
                   st.buffer ++ (st.buffer.drop (st.buffer.length - off)).take len,
                   esSize es⟩ f := by
              simp [decompressLoop, hrem0, hmaskp, hsc1, hsu, hfl, hp2ne, hwrapP,
                shiftLeft_mul, e1z, e2z, e3z, hmid2, hcnd.1, hcnd.2,
                hlenrem, hremsub]
            rw [hstep]
            exact ih _ 0 0 b final f hdrop (by omega) (by omega) hb rfl
              (fun h => absurd rfl h) rfl (fun h => absurd rfl h) hbc hbytes rfl
              htok2 hlit2 hrep hfuel2
        · have hmidN : (2:Nat)^p * 2 % 4294967296 = 2^(p+1) := by
            rw [← Nat.pow_succ]
            refine Nat.mod_eq_of_lt ?_
            calc (2:Nat)^(p+1) < 2^32 := Nat.pow_lt_pow_right (by omega) (by omega)
            _ = 4294967296 := by norm_num
          have hm32 : (p + 1) % 32 = p + 1 := Nat.mod_eq_of_lt (by omega)
          have h31p : 32 - (p + 1) = 31 - p := by omega
          have hbitsN : p + 1 ≠ 0 → ∃ a2, a2 < 2^(p+1) ∧
              st.bits = a2 + 2^(p+1) * flagBits (32 - (p+1)) es := by
            intro h
            refine ⟨a + 2^p, ?_, ?_⟩
            · have he : (2:Nat)^(p+1) = 2^p * 2 := Nat.pow_succ ..
              omega
            · rw [hab, hm, h31p, hk, Nat.pow_succ]
              ring
          by_cases hs0 : s = 0
          · subst hs0
            have hsc0 : st.stringCount = 0 := hsc
            have hfw : futureWords ls (.str off len :: es) p 0 b =
                strWordOf ls ((off, len) :: strsOf es) ::
                futureWords ls es (p+1) 1 b := by
              simp [futureWords, strsOf, hp0, hm32]
            rw [hfw] at hdrop
            obtain ⟨hget2, hdrop2, hlt2⟩ := drop_cons hdrop
            have hW2 : strWordOf ls ((off, len) :: strsOf es) =
                tokenOf ls (off, len) + 2^16 * u := by
              rw [strWordOf, hu]
            rw [hW2] at hget2
            have h65 : (2:Nat)^16 = 65536 := by norm_num
            have hg2 : (ws[st.cur]?).getD 0 = tokenOf ls (off, len) + 65536 * u := by
              rw [← List.getD_eq_getElem?_getD, ← h65]
              exact hget2
            have e1x : (tokenOf ls (off, len) + 65536 * u) % 2^ls + 3 = off := by
              rw [← h65, ← and_mask_eq_mod]
              exact e1
            have e2x : (tokenOf ls (off, len) + 65536 * u) >>> ls % 2^(16-ls) + 3 = len := by
              rw [← h65, ← and_mask_eq_mod]
              exact e2
            have e3x : (tokenOf ls (off, len) + 65536 * u) >>> 16 = u := by
              rw [← h65]
              exact e3
            have hmid2 : (tokenOf ls (off, len) + 65536 * u) >>> ls % 2^(16-ls) ≤
                (tokenOf ls (off, len) + 65536 * u) % 2^ls := by
              have h1 := e1x
              have h2 := e2x
              have h3 := hcnd.2
              omega
            have hstep : decompressLoop ws (2^ls - 1) ls (2^(16-ls) - 1) st (f + 1) =
                decompressLoop ws (2^ls - 1) ls (2^(16-ls) - 1)
                  ⟨st.cur + 1, st.bits, 2^(p+1), st.bytes, st.byteCount, u, 1,
                   st.buffer ++ (st.buffer.drop (st.buffer.length - off)).take len,
                   esSize es⟩ f := by
              simp [decompressLoop, hrem0, hmaskp, hsc0, hfl, hp2ne, hg2,
                shiftLeft_mul, hmidN, Nat.not_le.2 hlt2, e1x, e2x, e3x, hmid2,
                hcnd.1, hcnd.2, hlenrem, hremsub]
            rw [hstep]
            exact ih _ (p+1) 1 b final f hdrop2 (by omega) (by omega) hb
              (by show (2:Nat)^(p+1) = if p+1 = 0 then 0 else 2^(p+1)
                  rw [if_neg (by omega)])
              hbitsN rfl (fun h => hu.symm) hbc hbytes rfl
              htok2 hlit2 hrep hfuel2
          · have hs1 : s = 1 := by omega
            subst hs1
            have hsc1 : st.stringCount = 1 := hsc
            have hsu : st.strings = tokenOf ls (off, len) := hstr (by omega)
            have hfw : futureWords ls (.str off len :: es) p 1 b =
                futureWords ls es (p+1) 0 b := by
              simp [futureWords, hp0, hm32]
            rw [hfw] at hdrop
            have hext0 := token_extract (u := 0) (show ls ≤ 16 by omega) h3off hoffls
              h3len hlenls
            have e1z : tokenOf ls (off, len) % 2^ls + 3 = off := by
              have h1 := hext0.1
              rw [and_mask_eq_mod] at h1
              simpa using h1
            have e2z : tokenOf ls (off, len) >>> ls % 2^(16-ls) + 3 = len := by
              have h2 := hext0.2.1
              rw [and_mask_eq_mod] at h2
              simpa using h2
            have e3z : tokenOf ls (off, len) >>> 16 = 0 := by
              have h3 := hext0.2.2
              simpa using h3
            have hmid2 : tokenOf ls (off, len) >>> ls % 2^(16-ls) ≤
                tokenOf ls (off, len) % 2^ls := by
              have h1 := e1z
              have h2 := e2z
              have h3 := hcnd.2
              omega
            have hstep : decompressLoop ws (2^ls - 1) ls (2^(16-ls) - 1) st (f + 1) =
                decompressLoop ws (2^ls - 1) ls (2^(16-ls) - 1)
                  ⟨st.cur, st.bits, 2^(p+1), st.bytes, st.byteCount, 0, 0,
                   st.buffer ++ (st.buffer.drop (st.buffer.length - off)).take len,
                   esSize es⟩ f := by
              simp [decompressLoop, hrem0, hmaskp, hsc1, hsu, hfl, hp2ne,
                shiftLeft_mul, hmidN, e1z, e2z, e3z, hmid2, hcnd.1, hcnd.2,
                hlenrem, hremsub]
            rw [hstep]
            exact ih _ (p+1) 0 b final f hdrop (by omega) (by omega) hb
              (by show (2:Nat)^(p+1) = if p+1 = 0 then 0 else 2^(p+1)
                  rw [if_neg (by omega)])
              hbitsN rfl (fun h => absurd rfl h) hbc hbytes rfl
              htok2 hlit2 hrep hfuel2
    | lit v =>
      have hlithd : v < 256 := hlit _ (by simp [litsOf])
      have htok2 : ∀ t ∈ strsOf es, tokOK ls t := by simpa [strsOf] using htok
      have hlit2 : ∀ w ∈ litsOf es, w < 256 := fun w hw => hlit w (by simp [litsOf, hw])
      have hrem0 : ¬ st.remaining = 0 := by
        rw [hrem]
        show ¬ (1 + esSize es = 0)
        omega
      have hremsub : st.remaining - 1 = esSize es := by
        rw [hrem]
        show 1 + esSize es - 1 = esSize es
        omega
      rw [replayList] at hrep
      simp only [replayElem] at hrep
      obtain ⟨m, hk2⟩ : ∃ m, byteBits 3 (litsOf es) = m := ⟨_, rfl⟩
      by_cases hp0 : p = 0
      · subst hp0
        have hmask0 : st.bitMask = 0 := by rw [hmask]; rfl
        obtain ⟨k, hk⟩ : ∃ k, flagBits 31 es = k := ⟨_, rfl⟩
        have hF : flagWordOf (.lit v :: es) = 2 * k := by
          rw [flagWordOf, flagBits_succ_lit, hk]
        have hfl0 : (2 * k) % 2 = 0 := by omega
        by_cases hb0 : b = 0
        · subst hb0
          have hbc0 : st.byteCount = 0 := hbc
          have hfw : futureWords ls (.lit v :: es) 0 s 0 =
              flagWordOf (.lit v :: es) ::
              byteWordOf (litsOf (.lit v :: es)) :: futureWords ls es 1 s 1 := by
            simp [futureWords, litsOf]
          rw [hfw] at hdrop
          obtain ⟨hget1, hdrop1, hlt1⟩ := drop_cons hdrop
          obtain ⟨hget2, hdrop2, hlt2⟩ := drop_cons hdrop1
          have hWb : byteWordOf (litsOf (.lit v :: es)) = v + 256 * m := by
            rw [byteWordOf]
            show byteBits 4 (v :: litsOf es) = v + 256 * m
            rw [byteBits, hk2]
          rw [hWb] at hget2
          have hg1 : (ws[st.cur]?).getD 0 = 2 * k := by
            rw [← List.getD_eq_getElem?_getD, hget1, hF]
          have hg2 : (ws[st.cur + 1]?).getD 0 = v + 256 * m := by
            rw [← List.getD_eq_getElem?_getD]
            exact hget2
          have hba : (v + 256 * m) &&& 255 = v := byte_and_255 m hlithd
          have hbam : (v + 256 * m) % 256 = v := by omega
          have hbs : (v + 256 * m) >>> 8 = m := byte_shift8 v m hlithd
          have hstep : decompressLoop ws (2^ls - 1) ls (2^(16-ls) - 1) st (f + 1) =
              decompressLoop ws (2^ls - 1) ls (2^(16-ls) - 1)
                ⟨st.cur + 2, 2 * k, 2, m, 3, st.strings, st.stringCount,
                 st.buffer ++ [v], esSize es⟩ f := by
            simp [decompressLoop, hrem0, hmask0, hbc0, hg1, hg2, hfl0, hba, hbam,
              hbs, Nat.not_le.2 hlt1, Nat.not_le.2 hlt2, hremsub]
          rw [hstep]
          exact ih _ 1 s 1 final f hdrop2 (by omega) hs (by omega) rfl
            (fun h => ⟨0, by omega, by rw [hk]; norm_num⟩) hsc hstr rfl
            (fun h => hk2.symm) rfl htok2 hlit2 hrep hfuel2
        · by_cases hb3 : b = 3
          · subst hb3
            have hbc3 : st.byteCount = 1 := by rw [hbc]; rfl
            have hby : st.bytes = v + 256 * 0 := by
              rw [hbytes (by omega)]
              show byteBits 1 (v :: litsOf es) = v + 256 * 0
              rfl
            have hfw : futureWords ls (.lit v :: es) 0 s 3 =
                flagWordOf (.lit v :: es) :: futureWords ls es 1 s 0 := by
              simp [futureWords, litsOf]
            rw [hfw] at hdrop
            obtain ⟨hget1, hdrop1, hlt1⟩ := drop_cons hdrop
            have hg1 : (ws[st.cur]?).getD 0 = 2 * k := by
              rw [← List.getD_eq_getElem?_getD, hget1, hF]
            have hba : v &&& 255 = v := by simpa using byte_and_255 0 hlithd
            have hbam : v % 256 = v := Nat.mod_eq_of_lt hlithd
            have hbs : v >>> 8 = 0 := by simpa using byte_shift8 v 0 hlithd
            have hstep : decompressLoop ws (2^ls - 1) ls (2^(16-ls) - 1) st (f + 1) =
                decompressLoop ws (2^ls - 1) ls (2^(16-ls) - 1)
                  ⟨st.cur + 1, 2 * k, 2, 0, 0, st.strings, st.stringCount,
                   st.buffer ++ [v], esSize es⟩ f := by
              simp [decompressLoop, hrem0, hmask0, hbc3, hby, hg1, hfl0, hba, hbam,
                hbs, Nat.not_le.2 hlt1, hremsub]
            rw [hstep]
            exact ih _ 1 s 0 final f hdrop1 (by omega) hs (by omega) rfl
              (fun h => ⟨0, by omega, by rw [hk]; norm_num⟩) hsc hstr rfl
              (fun h => absurd rfl h) rfl htok2 hlit2 hrep hfuel2
          · have hbcb : st.byteCount = 4 - b := by rw [hbc, if_neg hb0]
            have h4b : 4 - b = (3 - b) + 1 := by omega
            obtain ⟨m2, hk3⟩ : ∃ m2, byteBits (3 - b) (litsOf es) = m2 := ⟨_, rfl⟩
            have hby : st.bytes = v + 256 * m2 := by
              rw [hbytes hb0, h4b]
              show byteBits ((3-b)+1) (v :: litsOf es) = v + 256 * m2
              rw [byteBits, hk3]
            have hbcne : ¬ st.byteCount = 0 := by omega
            have h4bne : ¬ ((4:Nat) - b = 0) := by omega
            have hsub1 : (4:Nat) - b - 1 = 4 - (b + 1) := by omega
            have hfw : futureWords ls (.lit v :: es) 0 s b =
                flagWordOf (.lit v :: es) :: futureWords ls es 1 s (b + 1) := by
              have hb4m : (b + 1) % 4 = b + 1 := Nat.mod_eq_of_lt (by omega)
              simp [futureWords, litsOf, hb0, hb4m]
            rw [hfw] at hdrop
            obtain ⟨hget1, hdrop1, hlt1⟩ := drop_cons hdrop
            have hg1 : (ws[st.cur]?).getD 0 = 2 * k := by
              rw [← List.getD_eq_getElem?_getD, hget1, hF]
            have hba : (v + 256 * m2) &&& 255 = v := byte_and_255 m2 hlithd
            have hbam : (v + 256 * m2) % 256 = v := by omega
            have hbs : (v + 256 * m2) >>> 8 = m2 := byte_shift8 v m2 hlithd
            have hstep : decompressLoop ws (2^ls - 1) ls (2^(16-ls) - 1) st (f + 1) =
                decompressLoop ws (2^ls - 1) ls (2^(16-ls) - 1)
                  ⟨st.cur + 1, 2 * k, 2, m2, 4 - (b + 1), st.strings, st.stringCount,
                   st.buffer ++ [v], esSize es⟩ f := by
              simp [decompressLoop, hrem0, hmask0, hbcb, hbcne, h4bne, hby, hg1,
                hfl0, hba, hbam, hbs, hsub1, Nat.not_le.2 hlt1, hremsub]
            rw [hstep]
            exact ih _ 1 s (b + 1) final f hdrop1 (by omega) hs (by omega) rfl
              (fun h => ⟨0, by omega, by rw [hk]; norm_num⟩) hsc hstr
              (by show (4:Nat) - (b+1) = if b + 1 = 0 then 0 else 4 - (b+1)
                  rw [if_neg (by omega)])
              (fun h => by
                show m2 = byteBits (4 - (b + 1)) (litsOf es)
                rw [show (4:Nat) - (b + 1) = 3 - b from by omega, hk3])
              rfl htok2 hlit2 hrep hfuel2
      · obtain ⟨a, ha, hab⟩ := hbits hp0
        have hmaskp : st.bitMask = 2^p := by rw [hmask, if_neg hp0]
        have hp2ne : (2:Nat)^p ≠ 0 := (Nat.two_pow_pos p).ne'
        have h32p : 32 - p = (31 - p) + 1 := by omega
        obtain ⟨k, hk⟩ : ∃ k, flagBits (31 - p) es = k := ⟨_, rfl⟩
        have hm : flagBits (32 - p) (.lit v :: es) = 2 * k := by
          rw [h32p, flagBits_succ_lit, hk]
        have hfl : st.bits &&& 2^p = 0 := by
          rw [hab, hm, flagtest p (2 * k) ha, if_neg (by omega)]
        have hmaskup : p = 31 → (2:Nat)^p * 2 % 4294967296 = 0 := by
          intro h31
          rw [h31]
          norm_num
        have hmidN : p ≠ 31 → (2:Nat)^p * 2 % 4294967296 = 2^(p+1) := by
          intro h31
          rw [← Nat.pow_succ]
          refine Nat.mod_eq_of_lt ?_
          calc (2:Nat)^(p+1) < 2^32 := Nat.pow_lt_pow_right (by omega) (by omega)
          _ = 4294967296 := by norm_num
        have hbitsN : ∀ q, (p + 1) % 32 = q → q ≠ 0 → ∃ a2, a2 < 2^q ∧
            st.bits = a2 + 2^q * flagBits (32 - q) es := by
          intro q hq hqne
          have hq' : q = p + 1 := by
            by_cases h31 : p = 31
            · subst h31
              simp at hq
              omega
            · rw [← hq, Nat.mod_eq_of_lt (by omega)]
          subst hq'
          refine ⟨a, ?_, ?_⟩
          · have he : (2:Nat)^(p+1) = 2^p * 2 := Nat.pow_succ ..
            omega
          · rw [hab, hm, show 32 - (p+1) = 31 - p from by omega, hk, Nat.pow_succ]
            ring
        obtain ⟨M, hM⟩ : ∃ M, (2:Nat)^p * 2 % 4294967296 = M := ⟨_, rfl⟩
        have hmaskN : M = if (p+1) % 32 = 0 then 0 else 2^((p+1) % 32) := by
          by_cases h31 : p = 31
          · rw [if_pos (show (p+1) % 32 = 0 by omega), ← hM]
            exact hmaskup h31
          · rw [if_neg (show ¬ (p+1) % 32 = 0 by omega),
              show (p+1) % 32 = p+1 from Nat.mod_eq_of_lt (by omega), ← hM]
            exact hmidN h31
        have hpm : (p+1) % 32 < 32 := Nat.mod_lt _ (by omega)
        by_cases hb0 : b = 0
        · subst hb0
          have hbc0 : st.byteCount = 0 := hbc
          have hfw : futureWords ls (.lit v :: es) p s 0 =
              byteWordOf (litsOf (.lit v :: es)) ::
              futureWords ls es ((p+1) % 32) s 1 := by
            simp [futureWords, litsOf, hp0]
          rw [hfw] at hdrop
          obtain ⟨hget2, hdrop2, hlt2⟩ := drop_cons hdrop
          have hWb : byteWordOf (litsOf (.lit v :: es)) = v + 256 * m := by
            rw [byteWordOf]
            show byteBits 4 (v :: litsOf es) = v + 256 * m
            rw [byteBits, hk2]
          rw [hWb] at hget2
          have hg2 : (ws[st.cur]?).getD 0 = v + 256 * m := by
            rw [← List.getD_eq_getElem?_getD]
            exact hget2
          have hba : (v + 256 * m) &&& 255 = v := byte_and_255 m hlithd
          have hbam : (v + 256 * m) % 256 = v := by omega
          have hbs : (v + 256 * m) >>> 8 = m := byte_shift8 v m hlithd
          have hstep : decompressLoop ws (2^ls - 1) ls (2^(16-ls) - 1) st (f + 1) =
              decompressLoop ws (2^ls - 1) ls (2^(16-ls) - 1)
                ⟨st.cur + 1, st.bits, M, m, 3, st.strings, st.stringCount,
                 st.buffer ++ [v], esSize es⟩ f := by
            simp [decompressLoop, hrem0, hmaskp, hp2ne, hbc0, hg2, hfl, hba, hbam,
              hbs, shiftLeft_mul, hM, Nat.not_le.2 hlt2, hremsub]
          rw [hstep]
          exact ih _ ((p+1) % 32) s 1 final f hdrop2 hpm hs (by omega) hmaskN
            (fun h => hbitsN _ rfl h) hsc hstr rfl
            (fun h => hk2.symm) rfl htok2 hlit2 hrep hfuel2
        · by_cases hb3 : b = 3
          · subst hb3
            have hbc3 : st.byteCount = 1 := by rw [hbc]; rfl
            have hby : st.bytes = v + 256 * 0 := by
              rw [hbytes (by omega)]
              show byteBits 1 (v :: litsOf es) = v + 256 * 0
              rfl
            have hfw : futureWords ls (.lit v :: es) p s 3 =
                futureWords ls es ((p+1) % 32) s 0 := by
              simp [futureWords, hp0]
            rw [hfw] at hdrop
            have hba : v &&& 255 = v := by simpa using byte_and_255 0 hlithd
            have hbam : v % 256 = v := Nat.mod_eq_of_lt hlithd
            have hbs : v >>> 8 = 0 := by simpa using byte_shift8 v 0 hlithd
            have hstep : decompressLoop ws (2^ls - 1) ls (2^(16-ls) - 1) st (f + 1) =
                decompressLoop ws (2^ls - 1) ls (2^(16-ls) - 1)
                  ⟨st.cur, st.bits, M, 0, 0, st.strings, st.stringCount,
                   st.buffer ++ [v], esSize es⟩ f := by
              simp [decompressLoop, hrem0, hmaskp, hp2ne, hbc3, hby, hfl, hba, hbam,
                hbs, shiftLeft_mul, hM, hremsub]
            rw [hstep]
            exact ih _ ((p+1) % 32) s 0 final f hdrop hpm hs (by omega) hmaskN
              (fun h => hbitsN _ rfl h) hsc hstr rfl
              (fun h => absurd rfl h) rfl htok2 hlit2 hrep hfuel2
          · have hbcb : st.byteCount = 4 - b := by rw [hbc, if_neg hb0]
            have h4b : 4 - b = (3 - b) + 1 := by omega
            obtain ⟨m2, hk3⟩ : ∃ m2, byteBits (3 - b) (litsOf es) = m2 := ⟨_, rfl⟩
            have hby : st.bytes = v + 256 * m2 := by
              rw [hbytes hb0, h4b]
              show byteBits ((3-b)+1) (v :: litsOf es) = v + 256 * m2
              rw [byteBits, hk3]
            have hbcne : ¬ st.byteCount = 0 := by omega
            have h4bne : ¬ ((4:Nat) - b = 0) := by omega
            have hsub1 : (4:Nat) - b - 1 = 4 - (b + 1) := by omega
            have hfw : futureWords ls (.lit v :: es) p s b =
                futureWords ls es ((p+1) % 32) s (b + 1) := by
              have hb4m : (b + 1) % 4 = b + 1 := Nat.mod_eq_of_lt (by omega)
              simp [futureWords, hp0, hb0, hb4m]
            rw [hfw] at hdrop
            have hba : (v + 256 * m2) &&& 255 = v := byte_and_255 m2 hlithd
            have hbam : (v + 256 * m2) % 256 = v := by omega
            have hbs : (v + 256 * m2) >>> 8 = m2 := byte_shift8 v m2 hlithd
            have hstep : decompressLoop ws (2^ls - 1) ls (2^(16-ls) - 1) st (f + 1) =
                decompressLoop ws (2^ls - 1) ls (2^(16-ls) - 1)
                  ⟨st.cur, st.bits, M, m2, 4 - (b + 1), st.strings, st.stringCount,
                   st.buffer ++ [v], esSize es⟩ f := by
              simp [decompressLoop, hrem0, hmaskp, hp2ne, hbcb, hbcne, h4bne, hby,
                hfl, hba, hbam, hbs, hsub1, shiftLeft_mul, hM, hremsub]
            rw [hstep]
            exact ih _ ((p+1) % 32) s (b + 1) final f hdrop hpm hs (by omega) hmaskN
              (fun h => hbitsN _ rfl h) hsc hstr
              (by show (4:Nat) - (b+1) = if b + 1 = 0 then 0 else 4 - (b+1)
                  rw [if_neg (by omega)])
              (fun h => by
                show m2 = byteBits (4 - (b + 1)) (litsOf es)
                rw [show (4:Nat) - (b + 1) = 3 - b from by omega, hk3])
              rfl htok2 hlit2 hrep hfuel2

end LZSS
namespace LZSS

theorem mem_of_strsOf : ∀ (es : List Elem) (t : Nat × Nat),
    t ∈ strsOf es → Elem.str t.1 t.2 ∈ es := by
  intro es
  induction es with
  | nil =>
    intro t h
    simp [strsOf] at h
  | cons e es ih =>
    intro t h
    cases e with
    | lit v => exact List.mem_cons_of_mem _ (ih t (by simpa [strsOf] using h))
    | str off len =>
      rw [strsOf] at h
      rcases List.mem_cons.1 h with he | hm
      · subst he
        exact List.mem_cons_self _ _
      · exact List.mem_cons_of_mem _ (ih t hm)

theorem esLength_le_esSize : ∀ es : List Elem,
    (∀ t ∈ strsOf es, 1 ≤ t.2) → es.length ≤ esSize es := by
  intro es
  induction es with
  | nil =>
    intro h
    simp [esSize]
  | cons e es ih =>
    intro h
    cases e with
    | lit v =>
      have hr := ih (fun t ht => h t (by simpa [strsOf] using ht))
      show es.length + 1 ≤ 1 + esSize es
      omega
    | str off len =>
      have h1 : 1 ≤ len := h (off, len) (by simp [strsOf])
      have hr := ih (fun t ht => h t (by simp [strsOf, ht]))
      show es.length + 1 ≤ len + esSize es
      omega

theorem completeOut_init (ls : Nat) (es : List Elem) :
    completeOut ls initEnc 0 0 0 es = futureWords ls es 0 0 0 := by
  simp [completeOut, initEnc]

theorem encCon_init : EncCon initEnc 0 0 0 := by
  unfold EncCon
  exact ⟨by omega, by omega, by omega, rfl, fun h => absurd rfl h, rfl,
    fun h => absurd rfl h, rfl, fun h => absurd rfl h, fun h => absurd rfl h,
    fun h => absurd rfl h, fun h => absurd rfl h, fun h1 h2 => absurd rfl h1,
    fun h1 h2 => absurd rfl h1, fun h1 h2 => absurd rfl h1⟩

/-- Master round-trip lemma: a successful `compress` output decompresses
back to the input whenever the declared output capacity suffices. -/
theorem compress_decompress {input : Bytes} {outLen d cap len : Nat} {ws : List Nat}
    (hin : ∀ v ∈ input, v < 256)
    (hok : compress input outLen d = .ok len ws)
    (hcap : input.length ≤ cap) :
    decompress ws cap = .ok input.length input := by
  obtain ⟨hpow, h4, h16, h8, hlen, hws⟩ := compress_ok_dest hok
  obtain ⟨hd, hls2, hls14⟩ := legal_dict hpow h4 h16
  obtain ⟨L, hL⟩ : ∃ L, lengthShiftOf d = L := ⟨_, rfl⟩
  rw [hL] at hd hls2 hls14 hws
  obtain ⟨E, hE⟩ : ∃ E, scanElems input (d+2) (65536/d + 2) = E := ⟨_, rfl⟩
  rw [hE] at hws
  have h2L : (1:Nat) ≤ 2^L := Nat.one_le_two_pow
  have h2M : (1:Nat) ≤ 2^(16-L) := Nat.one_le_two_pow
  have hmm : 65536 / d + 2 = 2^(16-L) + 2 := by
    rw [hd, maxMatch_eq (by omega)]
  have htokE : ∀ t ∈ strsOf E, tokOK L t := by
    intro t ht
    have hmem : Elem.str t.1 t.2 ∈ scanGo input (d+2) (65536/d + 2) 0 input.length := by
      rw [show scanGo input (d+2) (65536/d + 2) 0 input.length = E from hE]
      exact mem_of_strsOf E t ht
    obtain ⟨hb3, hbmm, hbo, ho3, homo⟩ :=
      scanGo_str_bounds input (d+2) (65536/d + 2) input.length 0 t.1 t.2 hmem
    refine ⟨ho3, ?_, hb3, ?_⟩
    · rw [hd] at homo
      omega
    · rw [hmm] at hbmm
      omega
  have hlitE : ∀ v ∈ litsOf E, v < 256 := by
    intro v hv
    refine hin v ?_
    refine scanGo_lits_mem input (d+2) (65536/d + 2) input.length 0 v ?_
    rw [show scanGo input (d+2) (65536/d + 2) 0 input.length = E from hE]
    exact hv
  have hout : (packFinish (packList L initEnc E)).out = futureWords L E 0 0 0 := by
    rw [packSerial L hls14 E initEnc 0 0 0 encCon_init htokE hlitE]
    exact completeOut_init L E
  have hws2 : ws = input.length :: d :: futureWords L E 0 0 0 := by
    rw [hws, hout]
    rfl
  have hg0 : ws.getD 0 0 = input.length := by rw [hws2]; rfl
  have hg1 : ws.getD 1 0 = d := by rw [hws2]; rfl
  have hsize : esSize E = input.length := by
    rw [← hE, scanElems, scanGo_size input (d+2) (65536/d + 2) input.length 0 (by omega)]
    omega
  have hrep0 : replayList [] E = some input := by
    rw [← hE, scanElems]
    have h := scanGo_replay input (d+2) (65536/d + 2) input.length 0 (by omega) (by omega)
    simpa using h
  have hfuel0 : E.length ≤ input.length := by
    rw [← hsize]
    exact esLength_le_esSize E (fun t ht => by
      have := (htokE t ht).2.2.1
      omega)
  obtain ⟨st', hloop, hbuf⟩ := decodeSim L (by omega) hls14 ws E
    ⟨2, 0, 0, 0, 0, 0, 0, [], input.length⟩ 0 0 0 input input.length
    (by rw [hws2]; rfl) (by omega) (by omega) (by omega) rfl
    (fun h => absurd rfl h) rfl (fun h => absurd rfl h) rfl
    (fun h => absurd rfl h) hsize.symm htokE hlitE hrep0 hfuel0
  unfold decompress
  simp only []
  rw [hg0, hg1, if_neg (by omega), hd, lengthShiftOf_two_pow,
    lengthMask_eq (by omega) hls14, hloop]
  show DecompressResult.ok input.length st'.buffer =
    DecompressResult.ok input.length input
  rw [hbuf]

end LZSS
namespace LZSS

/-- The byte-sequential forward copy described by the specification: each
copied byte is read `off` back from the current end of the buffer, after all
previously copied bytes have been appended (so the source may overlap the
freshly written destination). -/
def byteCopy (buf : Bytes) (off : Nat) : Nat → Bytes
  | 0 => buf
  | n+1 => byteCopy (buf ++ [buf.getD (buf.length - off) 0]) off n

theorem byteCopy_eq_block : ∀ (len : Nat) (buf : Bytes) (off : Nat),
    1 ≤ off → off ≤ buf.length → len ≤ off →
    byteCopy buf off len = buf ++ (buf.drop (buf.length - off)).take len := by
  intro len
  induction len with
  | zero =>
    intro buf off h1 h2 h3
    simp [byteCopy]
  | succ len ih =>
    intro buf off h1 h2 h3
    have hlt : buf.length - off < buf.length := by omega
    rw [byteCopy, ih _ off h1 (by simp; omega) (by omega)]
    have hdl : (buf ++ [buf.getD (buf.length - off) 0]).length - off =
        (buf.length - off) + 1 := by
      simp
      omega
    rw [hdl]
    have hdrop : (buf ++ [buf.getD (buf.length - off) 0]).drop (buf.length - off + 1) =
        buf.drop (buf.length - off + 1) ++ [buf.getD (buf.length - off) 0] := by
      rw [List.drop_append_of_le_length (by omega)]
    rw [hdrop]
    have htk : (buf.drop (buf.length - off + 1) ++ [buf.getD (buf.length - off) 0]).take len =
        (buf.drop (buf.length - off + 1)).take len := by
      rw [List.take_append_of_le_length (by simp; omega)]
    rw [htk]
    have hrhs : buf.drop (buf.length - off) =
        buf.getD (buf.length - off) 0 :: buf.drop (buf.length - off + 1) := by
      rw [List.getD_eq_getElem buf 0 hlt]
      exact List.drop_eq_getElem_cons hlt
    rw [hrhs, List.take_succ_cons]
    simp [List.append_assoc]

theorem length_ite_setAt (c : Prop) [Decidable c] (xs : List Nat) (i v : Nat) :
    (if c then setAt xs i v else xs).length = xs.length := by
  split <;> simp [setAt_length]

theorem packElem_lit_fields (ls v : Nat) (st : EncState) (p b : Nat)
    (hp : p < 32) (hb : b < 4)
    (hmask : st.bitMask = if p = 0 then 0 else 2^p) (hbc : st.byteCount = b) :
    (packElem ls st (.lit v)).nextOff =
      st.nextOff + (if p = 0 then 4 else 0) + (if b = 0 then 4 else 0) ∧
    (packElem ls st (.lit v)).bitMask =
      (if (p+1) % 32 = 0 then 0 else 2^((p+1) % 32)) ∧
    (packElem ls st (.lit v)).byteCount = (b+1) % 4 ∧
    (packElem ls st (.lit v)).out.length =
      st.out.length + (if p = 0 then 1 else 0) + (if b = 0 then 1 else 0) := by
  have hb4m : (b + 1) % 4 = b + 1 ∨ b = 3 := by omega
  by_cases hp0 : p = 0
  · subst hp0
    have hm0 : st.bitMask = 0 := by rw [hmask]; rfl
    by_cases hb0 : b = 0
    · subst hb0
      have hc0 : st.byteCount = 0 := hbc
      refine ⟨?_, ?_, ?_, ?_⟩ <;>
        simp [packElem, reserveBits, emitFlag0, reserveBytes, addByte, hm0, hc0]
    · by_cases hb3 : b = 3
      · subst hb3
        have hc3 : st.byteCount = 3 := hbc
        refine ⟨?_, ?_, ?_, ?_⟩ <;>
          simp [packElem, reserveBits, emitFlag0, reserveBytes, addByte, hm0, hc3,
            hb0, setAt_length]
      · have hcb : st.byteCount = b := hbc
        have hb4 : ¬ (st.byteCount + 1 = 4) := by omega
        have hb4x : (b + 1) % 4 = b + 1 := Nat.mod_eq_of_lt (by omega)
        refine ⟨?_, ?_, ?_, ?_⟩ <;>
          simp [packElem, reserveBits, emitFlag0, reserveBytes, addByte, hm0, hcb,
            hb0, hb3, hb4, hb4x]
  · have hmne : ¬ st.bitMask = 0 := by
      rw [hmask, if_neg hp0]
      exact (Nat.two_pow_pos p).ne'
    have hmaskp : st.bitMask = 2^p := by rw [hmask, if_neg hp0]
    have htgt : (if (p+1) % 32 = 0 then 0 else 2^((p+1) % 32)) =
        2^p * 2 % 4294967296 := by
      by_cases h31 : p = 31
      · rw [if_pos (by omega), h31]
        norm_num
      · rw [if_neg (show ¬ (p+1) % 32 = 0 by omega),
          show (p+1) % 32 = p + 1 from Nat.mod_eq_of_lt (by omega), ← Nat.pow_succ]
        refine (Nat.mod_eq_of_lt ?_).symm
        calc (2:Nat)^(p+1) < 2^32 := Nat.pow_lt_pow_right (by omega) (by omega)
        _ = 4294967296 := by norm_num
    by_cases hb0 : b = 0
    · subst hb0
      have hc0 : st.byteCount = 0 := hbc
      refine ⟨?_, ?_, ?_, ?_⟩ <;>
        simp [packElem, reserveBits, emitFlag0, reserveBytes, addByte, hmne, hc0,
          hmaskp, hp0, shiftLeft_mul, htgt, setAt_length, length_ite_setAt]
    · by_cases hb3 : b = 3
      · subst hb3
        have hc3 : st.byteCount = 3 := hbc
        refine ⟨?_, ?_, ?_, ?_⟩ <;>
          simp [packElem, reserveBits, emitFlag0, reserveBytes, addByte, hmne, hc3,
            hb0, hmaskp, hp0, shiftLeft_mul, htgt, setAt_length, length_ite_setAt]
      · have hcb : st.byteCount = b := hbc
        have hb4 : ¬ (st.byteCount + 1 = 4) := by omega
        have hb4x : (b + 1) % 4 = b + 1 := Nat.mod_eq_of_lt (by omega)
        refine ⟨?_, ?_, ?_, ?_⟩ <;>
          simp [packElem, reserveBits, emitFlag0, reserveBytes, addByte, hmne, hcb,
            hb0, hb3, hb4, hb4x, hmaskp, hp0, shiftLeft_mul, htgt, setAt_length,
            length_ite_setAt]

theorem packList_lit_fields (ls : Nat) : ∀ (vs : List Nat) (st : EncState) (p b : Nat),
    p < 32 → b < 4 →
    st.bitMask = (if p = 0 then 0 else 2^p) →
    st.byteCount = b →
    (packList ls st (vs.map Elem.lit)).nextOff =
      st.nextOff + 4 * reserveCount 32 vs.length p + 4 * reserveCount 4 vs.length b ∧
    (packList ls st (vs.map Elem.lit)).out.length =
      st.out.length + reserveCount 32 vs.length p + reserveCount 4 vs.length b := by
  intro vs
  induction vs with
  | nil =>
    intro st p b hp hb hmask hbc
    simp [packList, reserveCount]
  | cons v vs ih =>
    intro st p b hp hb hmask hbc
    obtain ⟨hno, hma, hbc2, hol⟩ := packElem_lit_fields ls v st p b hp hb hmask hbc
    have hstep : packList ls st ((v :: vs).map Elem.lit) =
        packList ls (packElem ls st (.lit v)) (vs.map Elem.lit) := rfl
    rw [hstep]
    obtain ⟨ih1, ih2⟩ := ih (packElem ls st (.lit v)) ((p+1) % 32) ((b+1) % 4)
      (Nat.mod_lt _ (by omega)) (Nat.mod_lt _ (by omega)) hma hbc2
    rw [ih1, ih2, hno, hol]
    have hrc1 : reserveCount 32 (v :: vs).length p =
        (if p = 0 then 1 else 0) + reserveCount 32 vs.length ((p+1) % 32) := rfl
    have hrc2 : reserveCount 4 (v :: vs).length b =
        (if b = 0 then 1 else 0) + reserveCount 4 vs.length ((b+1) % 4) := rfl
    rw [hrc1, hrc2]
    constructor
    · by_cases hp0 : p = 0 <;> by_cases hb0 : b = 0 <;>
        simp [hp0, hb0] <;> ring
    · by_cases hp0 : p = 0 <;> by_cases hb0 : b = 0 <;>
        simp [hp0, hb0] <;> ring

theorem reserveCount_32 : ∀ m q, q < 32 →
    reserveCount 32 m q = (m + (if q = 0 then 32 else q) - 1) / 32 := by
  intro m
  induction m with
  | zero =>
    intro q hq
    rw [reserveCount]
    by_cases hq0 : q = 0 <;> simp [hq0] <;> omega
  | succ m ih =>
    intro q hq
    rw [reserveCount, ih ((q+1) % 32) (Nat.mod_lt _ (by omega))]
    by_cases hq0 : q = 0
    · subst hq0
      rw [if_pos rfl, if_pos rfl, show (0+1) % 32 = 1 from rfl, if_neg (by omega)]
      omega
    · rw [if_neg hq0, if_neg hq0]
      by_cases hq31 : q = 31
      · subst hq31
        rw [show (31+1) % 32 = 0 from rfl, if_pos rfl]
        omega
      · rw [show (q+1) % 32 = q + 1 from Nat.mod_eq_of_lt (by omega),
          if_neg (by omega)]
        omega

theorem reserveCount_4 : ∀ m q, q < 4 →
    reserveCount 4 m q = (m + (if q = 0 then 4 else q) - 1) / 4 := by
  intro m
  induction m with
  | zero =>
    intro q hq
    rw [reserveCount]
    by_cases hq0 : q = 0 <;> simp [hq0] <;> omega
  | succ m ih =>
    intro q hq
    rw [reserveCount, ih ((q+1) % 4) (Nat.mod_lt _ (by omega))]
    by_cases hq0 : q = 0
    · subst hq0
      rw [if_pos rfl, if_pos rfl, show (0+1) % 4 = 1 from rfl, if_neg (by omega)]
      omega
    · rw [if_neg hq0, if_neg hq0]
      by_cases hq3 : q = 3
      · subst hq3
        rw [show (3+1) % 4 = 0 from rfl, if_pos rfl]
        omega
      · rw [show (q+1) % 4 = q + 1 from Nat.mod_eq_of_lt (by omega),
          if_neg (by omega)]
        omega

end LZSS
namespace LZSS

/-! ### The claims -/

/-- Claim C1: for every byte sequence, every legal dictionary length (a power
of two between 4 and 16384) and every output buffer large enough for the
compressed form (so that `compress` succeeds), decompressing the result of
`compress` terminates and yields exactly the input. -/
theorem claim_C1 (input : Bytes) (outLen d cap len : Nat) (ws : List Nat)
    (hin : ∀ v ∈ input, v < 256)
    (hpow : d &&& (d - 1) = 0) (h4 : 4 ≤ d) (h16 : d ≤ 16384)
    (hok : compress input outLen d = .ok len ws)
    (hcap : input.length ≤ cap) :
    decompress ws cap = .ok input.length input :=
  compress_decompress hin hok hcap

/-- Witness for C1 at the concrete input `[1, 2, 3]` with dictionary 4. -/
theorem claim_C1_witness :
    decompress [3, 4, 0, 197121] 3 = .ok 3 [1, 2, 3] :=
  claim_C1 [1, 2, 3] 100 4 3 16 [3, 4, 0, 197121] (by decide) (by decide)
    (by decide) (by decide) (by decide) (by decide)

/-- Claim C2 (amended): the reservation check compares the write cursor for
equality with the end of the destination, so the bound only holds when
`outputLength` is a multiple of the word size; under that alignment, a
successful compress fits in the destination and the `return false` path has
written only words that fit as well. -/
theorem claim_C2 (input : Bytes) (outLen d : Nat) (h4 : outLen % 4 = 0) :
    (∀ len ws, compress input outLen d = .ok len ws → len ≤ outLen) ∧
    (∀ ws, compress input outLen d = .bufferFull ws → 8 + 4 * ws.length ≤ outLen) := by
  unfold compress
  by_cases h1 : d &&& (d - 1) ≠ 0
  · rw [if_pos h1]
    exact ⟨fun len ws h => CompressResult.noConfusion h,
      fun ws h => CompressResult.noConfusion h⟩
  rw [if_neg h1]
  by_cases h2 : d < 4
  · rw [if_pos h2]
    exact ⟨fun len ws h => CompressResult.noConfusion h,
      fun ws h => CompressResult.noConfusion h⟩
  rw [if_neg h2]
  by_cases h3 : 16384 < d
  · rw [if_pos h3]
    exact ⟨fun len ws h => CompressResult.noConfusion h,
      fun ws h => CompressResult.noConfusion h⟩
  rw [if_neg h3]
  by_cases h8 : outLen < 8
  · rw [if_pos h8]
    exact ⟨fun len ws h => CompressResult.noConfusion h,
      fun ws h => CompressResult.noConfusion h⟩
  rw [if_neg h8]
  simp only []
  rcases hres : compressLoop input outLen (d+2) (65536/d + 2) (lengthShiftOf d) 0 initEnc
      input.length with stE | stO
  · have hinv := compressLoop_inv input outLen (d+2) (65536/d + 2) (lengthShiftOf d) h4
      input.length 0 initEnc stE (by decide) (by show (8:Nat) ≤ outLen; omega) rfl
      (Or.inr hres)
    refine ⟨fun len ws h => CompressResult.noConfusion h, fun ws h => ?_⟩
    injection h with hw
    subst hw
    omega
  · have hinv := compressLoop_inv input outLen (d+2) (65536/d + 2) (lengthShiftOf d) h4
      input.length 0 initEnc stO (by decide) (by show (8:Nat) ≤ outLen; omega) rfl
      (Or.inl hres)
    refine ⟨fun len ws h => ?_, fun ws h => CompressResult.noConfusion h⟩
    injection h with hlen hws
    rw [← hlen, packFinish_nextOff]
    omega

/-- Counterexample for C2 as stated: with the unaligned destination capacity
10, compressing `[5]` succeeds and reports 16 bytes written, past the
10-byte capacity, because the cursor stepped over the exact end. -/
theorem claim_C2_counterexample :
    compress [5] 10 8 = .ok 16 [1, 8, 0, 5] ∧ 10 < 16 := by decide

/-- Witness for C2 at the aligned capacity 12: compressing `[5]` aborts with
a full buffer after writing one word past the header, within capacity. -/
theorem claim_C2_witness :
    12 % 4 = 0 ∧ 8 + 4 * [(0:Nat)].length ≤ 12 :=
  ⟨by decide, (claim_C2 [5] 12 8 (by decide)).2 [0] (by decide)⟩

/-- Claim C3 (amended): the match-length comparison never reads past
`current` — its source pointer stops there — so a match length never exceeds
the distance to the window start and no self-overlapping token can arise. -/
theorem claim_C3 (input : Bytes) (s cur mm : Nat) :
    matchLen input s cur mm ≤ cur - s :=
  matchLen_le_dist input s cur mm

/-- Counterexample for C3 as stated: on the run `[7, 7, 7, 7]` the length of
the match of position 0 against position 1 stops at 1 (at `current`), even
though the bytes keep matching past it, and the whole input is emitted as
literals — no self-overlapping token appears. -/
theorem claim_C3_counterexample :
    matchLen [7, 7, 7, 7] 0 1 16386 = 1 ∧
    List.getD [7, 7, 7, 7] 1 0 = List.getD [7, 7, 7, 7] 2 0 ∧
    scanElems [7, 7, 7, 7] 6 16386 =
      [Elem.lit 7, Elem.lit 7, Elem.lit 7, Elem.lit 7] := by decide

/-- Claim C4 (amended): the decoder of the source copies each token with one
block copy of a slice of the already-written buffer, which agrees with the
byte-sequential forward copy described by the specification exactly when
`length ≤ offset` (disjoint ranges); the source's copy has no defined result
on overlapping ranges. -/
theorem claim_C4 (buf : Bytes) (off len : Nat) (h1 : 1 ≤ off)
    (h2 : off ≤ buf.length) (h3 : len ≤ off) :
    byteCopy buf off len = buf ++ (buf.drop (buf.length - off)).take len :=
  byteCopy_eq_block len buf off h1 h2 h3

/-- Counterexample for C4 as stated: a stream whose token has offset 3 and
length 6 (offset < length, the repeating-pattern case the specification
declares legal) drives the decoder into the overlapping-`memcpy` case, which
has no defined result. -/
theorem claim_C4_counterexample :
    decompress [9, 8, 8, 197121, 24] 9 = .undef := by decide

/-- Witness for C4 at a concrete disjoint copy. -/
theorem claim_C4_witness :
    byteCopy [1, 2, 3] 2 2 = [1, 2, 3] ++ ([1, 2, 3].drop 1).take 2 :=
  claim_C4 [1, 2, 3] 2 2 (by decide) (by decide) (by decide)

/-- Claim C5: every string token produced by the compression scan satisfies
`length ≤ offset`, so the decoder's block copy for such a token reads a
source range disjoint from the bytes it writes and is well defined. -/
theorem claim_C5 (input : Bytes) (d off length0 : Nat)
    (hmem : Elem.str off length0 ∈ scanElems input (d + 2) (65536 / d + 2)) :
    length0 ≤ off ∧
    ∀ buf : Bytes, off ≤ buf.length →
      replayElem buf (.str off length0) =
        some (buf ++ (buf.drop (buf.length - off)).take length0) := by
  obtain ⟨h1, h2, h3, h4, h5⟩ :=
    scanGo_str_bounds input (d+2) (65536/d+2) input.length 0 off length0 hmem
  refine ⟨h3, fun buf hb => ?_⟩
  rw [replayElem, if_pos ⟨hb, h3⟩]

/-- Witness for C5: the token `(3, 3)` of `[1, 2, 3, 1, 2, 3]` replayed onto
a 3-byte buffer. -/
theorem claim_C5_witness :
    replayElem [9, 9, 9] (.str 3 3) =
      some ([9, 9, 9] ++ ([9, 9, 9].drop 0).take 3) :=
  (claim_C5 [1, 2, 3, 1, 2, 3] 4 3 3 (by decide)).2 [9, 9, 9] (by decide)

/-- Claim C6 (amended): for a legal dictionary, every token of the scan is
bounded by `offset ≤ dictionaryLength + 2` and `length ≤ maxMatch` — the
bound on the length is NOT strict, `length = maxMatch` is attainable — and
both packed fields still fit their bit widths, so the fields never collide. -/
theorem claim_C6 (input : Bytes) (d off length0 : Nat)
    (hpow : d &&& (d - 1) = 0) (h4 : 4 ≤ d) (h16 : d ≤ 16384)
    (hmem : Elem.str off length0 ∈ scanElems input (d + 2) (65536 / d + 2)) :
    off ≤ d + 2 ∧ length0 ≤ 65536 / d + 2 ∧
    off - 3 < 2^(lengthShiftOf d) ∧ length0 - 3 < 2^(16 - lengthShiftOf d) := by
  obtain ⟨hd, hls2, hls14⟩ := legal_dict hpow h4 h16
  obtain ⟨hb3, hbmm, hbo, ho3, homo⟩ :=
    scanGo_str_bounds input (d+2) (65536/d+2) input.length 0 off length0 hmem
  have hmm : 65536 / d + 2 = 2^(16 - lengthShiftOf d) + 2 := by
    rw [hd, maxMatch_eq (by omega), lengthShiftOf_two_pow]
  have h2L : (1:Nat) ≤ 2^(lengthShiftOf d) := Nat.one_le_two_pow
  have h2M : (1:Nat) ≤ 2^(16 - lengthShiftOf d) := Nat.one_le_two_pow
  refine ⟨homo, hbmm, ?_, ?_⟩
  · rw [hd] at homo
    omega
  · rw [hmm] at hbmm
    omega

/-- Counterexample for C6 as stated: with dictionary 16384 (`maxMatch` = 6),
the input `[1..6, 1..6, 7]` produces the token `(6, 6)` whose length EQUALS
`maxMatch`, refuting the strict bound `bestLength < maxMatch`. -/
theorem claim_C6_counterexample :
    Elem.str 6 6 ∈
      scanElems [1, 2, 3, 4, 5, 6, 1, 2, 3, 4, 5, 6, 7] (16384 + 2) (65536 / 16384 + 2) ∧
    ¬ (6 < 65536 / 16384 + 2) := by decide

/-- Witness for C6 at the same token. -/
theorem claim_C6_witness :
    6 ≤ 16384 + 2 ∧ 6 ≤ 65536 / 16384 + 2 ∧
    6 - 3 < 2^(lengthShiftOf 16384) ∧ 6 - 3 < 2^(16 - lengthShiftOf 16384) :=
  claim_C6 [1, 2, 3, 4, 5, 6, 1, 2, 3, 4, 5, 6, 7] 16384 6 6 (by decide)
    (by decide) (by decide) (by decide)

/-- Claim C7: among the window starts whose match length equals the best
length, the search returns the offset of the closest one — the returned
offset is at most the offset `cur - u` of every candidate `u` achieving the
best length, because the `>=` update lets later (closer) candidates win. -/
theorem claim_C7 (input : Bytes) (lo cur mm u : Nat) (hlo : lo ≤ cur)
    (h1 : lo ≤ u) (h2 : u ≤ cur)
    (heq : matchLen input u cur mm = (findMatch input lo cur mm).1) :
    (findMatch input lo cur mm).2 ≤ cur - u :=
  (findMatch_spec input lo cur mm hlo).2.2 u h1 h2 heq

/-- Witness for C7: on `[5, 5, 5]` both window starts 0 and 1 match length 1
at position 2, and the search reports offset 1, the closer candidate. -/
theorem claim_C7_witness : (findMatch [5, 5, 5] 0 2 10).2 ≤ 2 - 1 :=
  claim_C7 [5, 5, 5] 0 2 10 1 (by decide) (by decide) (by decide) (by decide)

/-- Claim C8 (amended): the dictionary validations run in source order —
power of two first, then `< 4`, then `> 16384` — so a value that is both not
a power of two and less than 4 reports `InvalidDictionary`; each failure is a
structured error result with no output produced. -/
theorem claim_C8 (input : Bytes) (outLen d : Nat) :
    (d &&& (d - 1) ≠ 0 → compress input outLen d = .err .invalidDictionary) ∧
    (d &&& (d - 1) = 0 → d < 4 → compress input outLen d = .err .dictionaryTooSmall) ∧
    (d &&& (d - 1) = 0 → ¬ d < 4 → 16384 < d →
      compress input outLen d = .err .dictionaryTooLarge) := by
  unfold compress
  refine ⟨fun h => by rw [if_pos h], fun h hlt => ?_, fun h h4 h16 => ?_⟩
  · rw [if_neg (not_not_intro h), if_pos hlt]
  · rw [if_neg (not_not_intro h), if_neg h4, if_pos h16]

/-- Counterexample for C8 as stated: the dictionary length 3 is less than 4,
yet `compress` reports `InvalidDictionary`, not `DictionaryTooSmall`, because
the power-of-two test runs first. -/
theorem claim_C8_counterexample :
    compress [] 100 3 = .err .invalidDictionary ∧ 3 < 4 ∧
    CompressError.invalidDictionary ≠ CompressError.dictionaryTooSmall := by decide

/-- Witness for C8 on the three disjoint failure classes. -/
theorem claim_C8_witness :
    compress [] 100 6 = .err .invalidDictionary ∧
    compress [] 100 2 = .err .dictionaryTooSmall ∧
    compress [] 100 32768 = .err .dictionaryTooLarge :=
  ⟨(claim_C8 [] 100 6).1 (by decide),
   (claim_C8 [] 100 2).2.1 (by decide) (by decide),
   (claim_C8 [] 100 32768).2.2 (by decide) (by decide) (by decide)⟩

/-- Claim C9: an input with no repeated 3-byte substring in reach of any
window compresses to all literals: the returned length is the 8-byte header
plus one word per 32 flag bits plus one word per 4 literal bytes, and the
output holds exactly `2 + ceil(N/32) + ceil(N/4)` words (no string words). -/
theorem claim_C9 (input : Bytes) (outLen d len : Nat) (ws : List Nat)
    (hN : 1 ≤ input.length)
    (hnr : NoRepeat3 input (d + 2))
    (hok : compress input outLen d = .ok len ws) :
    len = 8 + 4 * ((input.length + 31) / 32) + 4 * ((input.length + 3) / 4) ∧
    ws.length = 2 + ((input.length + 31) / 32) + ((input.length + 3) / 4) := by
  obtain ⟨hpow, h4, h16, h8, hlen, hws⟩ := compress_ok_dest hok
  have hscan : scanElems input (d+2) (65536/d + 2) = input.map Elem.lit := by
    rw [scanElems, scanGo_noRepeat input (d+2) (65536/d+2) hnr input.length 0]
    simp
  rw [hscan] at hlen hws
  obtain ⟨hno, hol⟩ := packList_lit_fields (lengthShiftOf d) input initEnc 0 0
    (by omega) (by omega) rfl rfl
  have hrc32 := reserveCount_32 input.length 0 (by omega)
  have hrc4 := reserveCount_4 input.length 0 (by omega)
  rw [if_pos rfl] at hrc32 hrc4
  constructor
  · rw [hlen, packFinish_nextOff, hno, hrc32, hrc4]
    show 8 + 4 * ((input.length + 32 - 1) / 32) + 4 * ((input.length + 4 - 1) / 4) = _
    omega
  · rw [hws]
    have hl : (writeHeader input.length d ++
        (packFinish (packList (lengthShiftOf d) initEnc (input.map Elem.lit))).out).length =
        2 + (packFinish (packList (lengthShiftOf d) initEnc
          (input.map Elem.lit))).out.length := by
      simp [writeHeader]
      omega
    rw [hl, packFinish_out_length, hol, hrc32, hrc4]
    show 2 + (0 + (input.length + 32 - 1) / 32 + (input.length + 4 - 1) / 4) = _
    omega

/-- Witness for C9 at `[1, 2, 3]` with dictionary 4: 16 bytes, 4 words. -/
theorem claim_C9_witness :
    (16:Nat) = 8 + 4 * ((3 + 31) / 32) + 4 * ((3 + 3) / 4) ∧
    (4:Nat) = 2 + (3 + 31) / 32 + (3 + 3) / 4 :=
  claim_C9 [1, 2, 3] 100 4 16 [3, 4, 0, 197121] (by decide) (by decide) (by decide)

/-- Claim C10: the header round-trips — `readHeader (writeHeader n d) =
(n, d)` — and `getDecompressedLength` on any successful compress output is
the input length, read before any decompression work. -/
theorem claim_C10 (n d : Nat) (input : Bytes) (outLen dc len : Nat) (ws : List Nat)
    (hok : compress input outLen dc = .ok len ws) :
    readHeader (writeHeader n d) = (n, d) ∧
    getDecompressedLength ws = input.length := by
  refine ⟨rfl, ?_⟩
  obtain ⟨-, -, -, -, -, hws⟩ := compress_ok_dest hok
  rw [hws]
  rfl

/-- Witness for C10 at concrete header values and a concrete compression. -/
theorem claim_C10_witness :
    readHeader (writeHeader 7 64) = (7, 64) ∧
    getDecompressedLength [3, 4, 0, 197121] = 3 :=
  claim_C10 7 64 [1, 2, 3] 100 4 16 [3, 4, 0, 197121] (by decide)

end LZSS
